import Mathlib

/-!
Verification development for the feathertail in-process columnar engine.

The Rust source is shallowly embedded as executable Lean definitions.
Modelling conventions, used consistently below:

* `f64` values are modelled as exact rationals (`ℚ`): all arithmetic on
  finite doubles is idealised as exact arithmetic.  Where a claim depends
  on the IEEE special values (NaN, ±Infinity) a dedicated model `F64`
  carrying those values is used instead.
* `i64`/`u64` are modelled as `ℤ`/`ℕ`; none of the verified claims
  depends on wrap-around overflow behaviour.
* Rust `HashMap` values are modelled as association lists.  Lookup and
  insert-or-update are key-based, so they agree with `HashMap` semantics;
  iteration order, which `HashMap` leaves unspecified, is modelled as
  insertion order.
* Indexing expressions `v[i]` that panic when out of bounds in Rust are
  modelled with `List.getD` (a junk default); every verified statement
  only exercises them in bounds.
* Fallible Rust functions returning `PyResult` are modelled with
  `Except String`.
-/

namespace Feathertail

/-- Decidable equality for `Except` results, so that concrete runs of
the embedded fallible operations can be checked by `decide`. -/
instance exceptDecEq {ε α : Type} [DecidableEq ε] [DecidableEq α] :
    DecidableEq (Except ε α) := fun a b =>
  match a, b with
  | .error e, .error e' => decidable_of_iff (e = e') (by simp)
  | .ok x, .ok y => decidable_of_iff (x = y) (by simp)
  | .error _, .ok _ => isFalse (by simp)
  | .ok _, .error _ => isFalse (by simp)

/-- `ValueEnum` from `src/frame/mod.rs` (lines 17-24): the scalar value
materialised from a column cell.  The `f64` payload is modelled as an
exact rational (finite doubles only; the NaN/∞-sensitive hashing model
is `F64`/`ValueEnumF` below). -/
inductive ValueEnum where
  | Int (i : ℤ)
  | Float (f : ℚ)
  | Str (s : String)
  | Bool (b : Bool)
  | PyObjectId (id : ℕ)
deriving DecidableEq

/-- `TinyColumn` from `src/frame/mod.rs` (lines 72-86): the tagged union
of column payload vectors. -/
inductive TinyColumn where
  | Int (v : List ℤ)
  | Float (v : List ℚ)
  | Str (v : List String)
  | Bool (v : List Bool)
  | OptInt (v : List (Option ℤ))
  | OptFloat (v : List (Option ℚ))
  | OptStr (v : List (Option String))
  | OptBool (v : List (Option Bool))
  | Mixed (v : List ValueEnum)
  | OptMixed (v : List (Option ValueEnum))
  | PyObject (v : List ℕ)
  | OptPyObject (v : List (Option ℕ))
deriving DecidableEq

/-- A Python scalar value as seen across the pyo3 boundary (argument of
`from_dicts`, filter literals, ...).  `obj id` stands for an arbitrary
non-scalar Python object, identified by its pointer value as in the
source (`val.as_ptr() as u64`). -/
inductive PyVal where
  | none
  | int (i : ℤ)
  | float (q : ℚ)
  | str (s : String)
  | bool (b : Bool)
  | obj (id : ℕ)
deriving DecidableEq

/-- `TinyFrame` from `src/frame/mod.rs` (lines 93-99).  The `columns`
hash map is modelled as an insertion-ordered association list; the
`py_objects` side table maps object ids to the stored Python objects. -/
structure TinyFrame where
  columns : List (String × TinyColumn)
  length : ℕ
  pyObjects : List (ℕ × PyVal)
deriving DecidableEq

/-- `TinyFrame::new`: the empty frame. -/
def TinyFrame.new : TinyFrame := ⟨[], 0, []⟩

/-- `TinyColumn::len` from `src/frame/mod.rs` (lines 1080-1095). -/
def TinyColumn.len : TinyColumn → ℕ
  | .Int v => v.length
  | .Float v => v.length
  | .Str v => v.length
  | .Bool v => v.length
  | .OptInt v => v.length
  | .OptFloat v => v.length
  | .OptStr v => v.length
  | .OptBool v => v.length
  | .Mixed v => v.length
  | .OptMixed v => v.length
  | .PyObject v => v.length
  | .OptPyObject v => v.length

/-- Key-based update of an association list, modelling writing through
`HashMap::get_mut`: the value stored under key `n` is replaced by `c`,
all other entries are unchanged. -/
def assocUpdate {β : Type} (m : List (String × β)) (n : String) (c : β) :
    List (String × β) :=
  m.map (fun p => if p.1 = n then (n, c) else p)

/-- `HashMap::insert` modelled on association lists: replace the entry in
place if the key is present, otherwise append the new entry. -/
def assocInsert {β : Type} (m : List (String × β)) (n : String) (c : β) :
    List (String × β) :=
  if (List.lookup n m).isSome then assocUpdate m n c else m ++ [(n, c)]

/-- Push `i` onto the index list stored under key `k`, creating the entry
if absent: models `map.entry(key).or_insert_with(Vec::new).push(row_idx)`. -/
def entryPush {κ : Type} [DecidableEq κ] (m : List (κ × List ℕ)) (k : κ)
    (i : ℕ) : List (κ × List ℕ) :=
  if (m.find? (fun p => p.1 = k)).isSome then
    m.map (fun p => if p.1 = k then (p.1, p.2 ++ [i]) else p)
  else m ++ [(k, [i])]

/-- Add `q` to the sum stored under key `k`, starting from `0` if absent:
models `*aggregated.entry(key).or_insert(0.0) += value`. -/
def entryAdd {κ : Type} [DecidableEq κ] (m : List (κ × ℚ)) (k : κ)
    (q : ℚ) : List (κ × ℚ) :=
  if (m.find? (fun p => p.1 = k)).isSome then
    m.map (fun p => if p.1 = k then (p.1, p.2 + q) else p)
  else m ++ [(k, q)]

/-- Key-based lookup in an association list with an arbitrary
decidable-equality key type (`List.lookup` restricted to `BEq` via
`decide`). -/
def lookupKey {κ β : Type} [DecidableEq κ] (m : List (κ × β)) (k : κ) :
    Option β :=
  (m.find? (fun p => p.1 = k)).map (·.2)

namespace JoinOps

/-- `JoinOps::get_value_at_index` from `src/joins/mod.rs` (lines 122-138):
materialise the `ValueEnum` at `index`, `none` for a null slot.  The
functions of the same name in `src/parallel/mod.rs` (lines 193-208) and
`src/chunked/mod.rs` (lines 410-425) are textually identical and are
shared through this single definition. -/
def get_value_at_index : TinyColumn → ℕ → Option ValueEnum
  | .Int v, i => (v.get? i).map .Int
  | .Float v, i => (v.get? i).map .Float
  | .Str v, i => (v.get? i).map .Str
  | .Bool v, i => (v.get? i).map .Bool
  | .PyObject v, i => (v.get? i).map .PyObjectId
  | .Mixed v, i => v.get? i
  | .OptInt v, i => (v.get? i).bind (fun o => o.map .Int)
  | .OptFloat v, i => (v.get? i).bind (fun o => o.map .Float)
  | .OptStr v, i => (v.get? i).bind (fun o => o.map .Str)
  | .OptBool v, i => (v.get? i).bind (fun o => o.map .Bool)
  | .OptPyObject v, i => (v.get? i).bind (fun o => o.map .PyObjectId)
  | .OptMixed v, i => (v.get? i).bind id

/-- The key tuple built for row `row_idx` inside
`JoinOps::build_key_map` (`src/joins/mod.rs` lines 105-115).  Note the
faithful rendering of the loop: the `continue` statement in the source
skips only the current *column* (the null value is dropped from the key
tuple), it does not skip the row, hence `filterMap`.  The
`frame.columns.get(col_name).unwrap()` panic for a missing column
(unreachable after `perform_join`'s validation) is modelled by skipping
the column. -/
def key_of_row (f : TinyFrame) (columns : List String) (row_idx : ℕ) :
    List ValueEnum :=
  columns.filterMap (fun c =>
    (List.lookup c f.columns).bind (fun col => get_value_at_index col row_idx))

/-- `JoinOps::build_key_map` from `src/joins/mod.rs` (lines 102-120):
for every row of the frame, the key tuple is computed and the row index
is pushed onto the map entry for that tuple. -/
def build_key_map (f : TinyFrame) (columns : List String) :
    List (List ValueEnum × List ℕ) :=
  (List.range f.length).foldl
    (fun m i => entryPush m (key_of_row f columns i) i) []

/-- `JoinOps::create_empty_column` from `src/joins/mod.rs`
(lines 526-541): an empty column of the same shape. -/
def create_empty_column : TinyColumn → TinyColumn
  | .Int _ => .Int []
  | .Float _ => .Float []
  | .Str _ => .Str []
  | .Bool _ => .Bool []
  | .PyObject _ => .PyObject []
  | .Mixed _ => .Mixed []
  | .OptInt _ => .OptInt []
  | .OptFloat _ => .OptFloat []
  | .OptStr _ => .OptStr []
  | .OptBool _ => .OptBool []
  | .OptPyObject _ => .OptPyObject []
  | .OptMixed _ => .OptMixed []

/-- `JoinOps::append_value_to_column` from `src/joins/mod.rs`
(lines 560-624): push `source[source_idx]` onto the target column;
matching plain-into-optional pairs are widened; any other pairing is a
type-mismatch error.  Out-of-bounds source indexing (a Rust panic) is
modelled with a junk default. -/
def append_value_to_column (col source : TinyColumn) (idx : ℕ) :
    Except String TinyColumn :=
  match col, source with
  | .Int t, .Int s => .ok (.Int (t ++ [s.getD idx 0]))
  | .Float t, .Float s => .ok (.Float (t ++ [s.getD idx 0]))
  | .Str t, .Str s => .ok (.Str (t ++ [s.getD idx ""]))
  | .Bool t, .Bool s => .ok (.Bool (t ++ [s.getD idx false]))
  | .PyObject t, .PyObject s => .ok (.PyObject (t ++ [s.getD idx 0]))
  | .Mixed t, .Mixed s => .ok (.Mixed (t ++ [s.getD idx (.Int 0)]))
  | .OptInt t, .OptInt s => .ok (.OptInt (t ++ [s.getD idx none]))
  | .OptFloat t, .OptFloat s => .ok (.OptFloat (t ++ [s.getD idx none]))
  | .OptStr t, .OptStr s => .ok (.OptStr (t ++ [s.getD idx none]))
  | .OptBool t, .OptBool s => .ok (.OptBool (t ++ [s.getD idx none]))
  | .OptPyObject t, .OptPyObject s => .ok (.OptPyObject (t ++ [s.getD idx none]))
  | .OptMixed t, .OptMixed s => .ok (.OptMixed (t ++ [s.getD idx none]))
  | .OptInt t, .Int s => .ok (.OptInt (t ++ [some (s.getD idx 0)]))
  | .OptFloat t, .Float s => .ok (.OptFloat (t ++ [some (s.getD idx 0)]))
  | .OptStr t, .Str s => .ok (.OptStr (t ++ [some (s.getD idx "")]))
  | .OptBool t, .Bool s => .ok (.OptBool (t ++ [some (s.getD idx false)]))
  | .OptPyObject t, .PyObject s => .ok (.OptPyObject (t ++ [some (s.getD idx 0)]))
  | .OptMixed t, .Mixed s => .ok (.OptMixed (t ++ [some (s.getD idx (.Int 0))]))
  | _, _ => .error "Column type mismatch in join operation"

/-- One pass of the per-row append loops of the join builders: for every
`(col_name, col_data)` of `src`, append row `idx` of `col_data` onto the
result column of the same name (`result_columns.get_mut(col_name).unwrap()`;
the unreachable missing-name panic is modelled as an error). -/
def appendRowFrom (result : List (String × TinyColumn))
    (src : List (String × TinyColumn)) (idx : ℕ) :
    Except String (List (String × TinyColumn)) :=
  src.foldlM
    (fun acc p =>
      match List.lookup p.1 acc with
      | some tgt =>
        (append_value_to_column tgt p.2 idx).map (assocUpdate acc p.1)
      | none => .error "missing result column")
    result

/-- `JoinOps::cross_join` from `src/joins/mod.rs` (lines 715-763):
initialise empty result columns (all left columns, then the right
columns whose names are not already present), then for every pair of a
left row and a right row append the left row data for all left columns
and the right row data for all right columns. -/
def cross_join (l r : TinyFrame) : Except String TinyFrame := do
  let init :=
    l.columns.map (fun p => (p.1, create_empty_column p.2)) ++
      (r.columns.filter (fun p => (List.lookup p.1 l.columns).isNone)).map
        (fun p => (p.1, create_empty_column p.2))
  let pairs := (List.range l.length).flatMap
    (fun li => (List.range r.length).map (fun ri => (li, ri)))
  let final ← pairs.foldlM
    (fun (acc : List (String × TinyColumn) × ℕ) pr => do
      let c1 ← appendRowFrom acc.1 l.columns pr.1
      let c2 ← appendRowFrom c1 r.columns pr.2
      pure (c2, acc.2 + 1))
    (init, 0)
  pure ⟨final.1, final.2, l.pyObjects⟩

end JoinOps

namespace TinyFrame

/-- `TinyFrame::drop_columns` from `src/frame/mod.rs` (lines 165-175),
acting on the mutable column map: for each name in list order, if the
column is absent the loop returns a not-found error immediately (the
removals already performed persist, since the method mutates `self`),
otherwise the column is removed and the loop continues.  The returned
pair is (error, final column map). -/
def drop_columns_go (cols : List (String × TinyColumn)) :
    List String → Option String × List (String × TinyColumn)
  | [] => (none, cols)
  | d :: ds =>
    if (List.lookup d cols).isSome then
      drop_columns_go (cols.eraseP (fun p => p.1 == d)) ds
    else (some d, cols)

/-- `TinyFrame::drop_columns` at frame level: the frame after the call
(mutated in place in the source) together with the error, if any. -/
def drop_columns (f : TinyFrame) (columns_to_drop : List String) :
    Option String × TinyFrame :=
  let r := drop_columns_go f.columns columns_to_drop
  (r.1, ⟨r.2, f.length, f.pyObjects⟩)

end TinyFrame

namespace TinyFrame

/-- `TinyFrame::filter_by_indices` on a single column
(`src/frame/mod.rs` lines 954-1007): gather the values at `indices`
(Rust panics out of bounds; junk default here). -/
def filter_column_by_indices (indices : List ℕ) : TinyColumn → TinyColumn
  | .Int v => .Int (indices.map (fun i => v.getD i 0))
  | .Float v => .Float (indices.map (fun i => v.getD i 0))
  | .Str v => .Str (indices.map (fun i => v.getD i ""))
  | .Bool v => .Bool (indices.map (fun i => v.getD i false))
  | .OptInt v => .OptInt (indices.map (fun i => v.getD i none))
  | .OptFloat v => .OptFloat (indices.map (fun i => v.getD i none))
  | .OptStr v => .OptStr (indices.map (fun i => v.getD i none))
  | .OptBool v => .OptBool (indices.map (fun i => v.getD i none))
  | .Mixed v => .Mixed (indices.map (fun i => v.getD i (.Int 0)))
  | .OptMixed v => .OptMixed (indices.map (fun i => v.getD i none))
  | .PyObject v => .PyObject (indices.map (fun i => v.getD i 0))
  | .OptPyObject v => .OptPyObject (indices.map (fun i => v.getD i none))

/-- `TinyFrame::filter_by_indices` from `src/frame/mod.rs`
(lines 954-1016): every column is gathered at `indices`; the new length
is the number of indices; the side table is shared. -/
def filter_by_indices (f : TinyFrame) (indices : List ℕ) : TinyFrame :=
  ⟨f.columns.map (fun p => (p.1, filter_column_by_indices indices p.2)),
    indices.length, f.pyObjects⟩

/-- `TinyFrame::get_value_at_index` from `src/frame/mod.rs`
(lines 1059-1067): the numeric sort key of row `index`; int is coerced
to float, every non-int/float column kind yields `None`. -/
def get_value_at_index : TinyColumn → ℕ → Option ℚ
  | .Int v, i => (v.get? i).map (fun x => (x : ℚ))
  | .Float v, i => v.get? i
  | .OptInt v, i => (v.get? i).bind (fun o => o.map (fun x => (x : ℚ)))
  | .OptFloat v, i => (v.get? i).bind id
  | _, _ => none

/-- `TinyFrame::compare_for_sort` from `src/frame/mod.rs`
(lines 1069-1076): absent values compare greater than present ones; two
present finite values compare numerically (the `unwrap_or(Equal)` NaN
fallback never fires on finite doubles, i.e. on `ℚ`). -/
def compare_for_sort : Option ℚ → Option ℚ → Ordering
  | some a, some b => if a < b then .lt else if b < a then .gt else .eq
  | some _, none => .lt
  | none, some _ => .gt
  | none, none => .eq

/-- The comparator closure of `TinyFrame::sort_values`
(`src/frame/mod.rs` lines 304-327): walk the sort-key columns in order;
the first non-equal comparison decides (reversed when descending); a
missing column (unreachable after validation) makes the whole comparator
return `Equal`. -/
def sort_cmp (f : TinyFrame) (ascending : Bool) :
    List String → ℕ → ℕ → Ordering
  | [], _, _ => .eq
  | c :: cs, a, b =>
    match List.lookup c f.columns with
    | none => .eq
    | some col =>
      let cmp := compare_for_sort (get_value_at_index col a)
        (get_value_at_index col b)
      if cmp ≠ .eq then (if ascending then cmp else cmp.swap)
      else sort_cmp f ascending cs a b

/-- The sorted row-index permutation of `TinyFrame::sort_values`.
Rust's `slice::sort_by` is a stable sort; it is modelled by
`List.mergeSort`, whose result is the unique stable ordering for the
given comparator. -/
def sort_indices (f : TinyFrame) (by_cols : List String) (ascending : Bool) :
    List ℕ :=
  (List.range f.length).mergeSort
    (fun a b => sort_cmp f ascending by_cols a b ≠ .gt)

/-- `TinyFrame::sort_values` from `src/frame/mod.rs` (lines 284-330):
default ascending, empty frames returned unchanged, sort-key columns
validated to exist, then the stable index sort is applied through
`filter_by_indices`. -/
def sort_values (f : TinyFrame) (by_cols : List String)
    (ascending : Option Bool) : Except String TinyFrame :=
  let asc := ascending.getD true
  if f.length = 0 then .ok f
  else if by_cols.all (fun c => (List.lookup c f.columns).isSome) then
    .ok (filter_by_indices f (sort_indices f by_cols asc))
  else .error "Column not found"

/-- Extraction of a Python argument as `f64`
(`py_value.extract::<f64>()`): succeeds on Python floats, ints (modelled
as exact) and bools (1.0/0.0), fails otherwise. -/
def pyExtractF64 : PyVal → Except String ℚ
  | .int i => .ok (i : ℚ)
  | .float q => .ok q
  | .bool b => .ok (if b then 1 else 0)
  | _ => .error "TypeError"

/-- Extraction of a Python argument as `String`
(`py_value.extract::<String>()`): succeeds only on Python strings. -/
def pyExtractStr : PyVal → Except String String
  | .str s => .ok s
  | _ => .error "TypeError"

/-- `TinyFrame::compare_values` from `src/frame/mod.rs`
(lines 1018-1032): numeric comparison of an int/float cell against the
Python literal extracted as `f64` (int cells are cast to float);
string, bool and object cells compare to `false` without touching the
literal. -/
def compare_values (val : ValueEnum) (py_value : PyVal)
    (compare_fn : ℚ → ℚ → Bool) : Except String Bool :=
  match val with
  | .Int v => (pyExtractF64 py_value).map (fun q => compare_fn (v : ℚ) q)
  | .Float v => (pyExtractF64 py_value).map (fun q => compare_fn v q)
  | .Str _ => .ok false
  | .Bool _ => .ok false
  | .PyObjectId _ => .ok false

/-- `TinyFrame::compare_string_values` from `src/frame/mod.rs`
(lines 1034-1046). -/
def compare_string_values (val : ValueEnum) (py_value : PyVal)
    (condition : String) : Except String Bool :=
  match val with
  | .Str s =>
    (pyExtractStr py_value).map (fun t =>
      match condition with
      | "==" => s == t
      | "!=" => s != t
      | _ => false)
  | _ => .ok false

/-- `TinyFrame::check_in_values` from `src/frame/mod.rs`
(lines 1048-1057): membership degenerates to string equality against the
literal; every non-string cell yields `false`. -/
def check_in_values (val : ValueEnum) (py_value : PyVal) :
    Except String Bool :=
  match val with
  | .Str s => (pyExtractStr py_value).map (fun t => s == t)
  | _ => .ok false

/-- The per-value match of `TinyFrame::filter`
(`src/frame/mod.rs` lines 211-233). -/
def row_matches (condition : String) (value : PyVal)
    (val : ValueEnum) : Except String Bool :=
  match condition with
  | "==" =>
    match val with
    | .Str _ => compare_string_values val value "=="
    | _ => compare_values val value (fun a b => a == b)
  | "!=" =>
    match val with
    | .Str _ => compare_string_values val value "!="
    | _ => compare_values val value (fun a b => a != b)
  | ">" => compare_values val value (fun a b => decide (a > b))
  | "<" => compare_values val value (fun a b => decide (a < b))
  | ">=" => compare_values val value (fun a b => decide (a ≥ b))
  | "<=" => compare_values val value (fun a b => decide (a ≤ b))
  | "in" => check_in_values val value
  | "not_in" => (check_in_values val value).map (fun b => !b)
  | _ => .error "Unknown condition"

/-- `TinyColumn::iter` (`TinyColumnIter::next`, `src/frame/mod.rs`
lines 1113-1157) collected into a list.  The iterator returns `None` as
soon as it reaches a null slot of an optional column, which terminates a
Rust `for` loop: iteration stops at the first null, so only the prefix
of values before the first null is produced. -/
def iter_values : TinyColumn → List ValueEnum
  | .Int v => v.map .Int
  | .Float v => v.map .Float
  | .Str v => v.map .Str
  | .Bool v => v.map .Bool
  | .Mixed v => v
  | .PyObject v => v.map .PyObjectId
  | .OptInt v => (v.takeWhile Option.isSome).filterMap (fun o => o.map .Int)
  | .OptFloat v => (v.takeWhile Option.isSome).filterMap (fun o => o.map .Float)
  | .OptStr v => (v.takeWhile Option.isSome).filterMap (fun o => o.map .Str)
  | .OptBool v => (v.takeWhile Option.isSome).filterMap (fun o => o.map .Bool)
  | .OptMixed v => (v.takeWhile Option.isSome).filterMap id
  | .OptPyObject v =>
    (v.takeWhile Option.isSome).filterMap (fun o => o.map .PyObjectId)

/-- The `filtered_indices` accumulation loop of `TinyFrame::filter`
(`src/frame/mod.rs` lines 208-238): enumerate the column iterator and
keep the indices whose value matches; an extraction error aborts the
whole call. -/
def filter_indices (col : TinyColumn) (condition : String)
    (value : PyVal) : Except String (List ℕ) :=
  (iter_values col).enum.foldlM
    (fun acc p => do
      let m ← row_matches condition value p.2
      pure (if m then acc ++ [p.1] else acc))
    []

/-- `TinyFrame::filter` from `src/frame/mod.rs` (lines 203-241). -/
def filter (f : TinyFrame) (column : String) (condition : String)
    (value : PyVal) : Except String TinyFrame := do
  match List.lookup column f.columns with
  | none => .error "Column not found"
  | some col => do
    let idxs ← filter_indices col condition value
    pure (filter_by_indices f idxs)

end TinyFrame

namespace ParallelOps

/-- `ParallelOps::get_value_at_index` from `src/parallel/mod.rs`
(lines 193-208), textually identical to the joins version. -/
def get_value_at_index : TinyColumn → ℕ → Option ValueEnum :=
  JoinOps.get_value_at_index

/-- `FilterCondition::convert_py_value` from `src/parallel/mod.rs`
(lines 419-433): the literal is tried as `i64` first (which also
captures Python bools, mapped to 0/1), then `f64`, then `String`;
anything else is a type error. -/
def convert_py_value : PyVal → Except String ValueEnum
  | .int i => .ok (.Int i)
  | .bool b => .ok (.Int (if b then 1 else 0))
  | .float q => .ok (.Float q)
  | .str s => .ok (.Str s)
  | _ => .error "Unsupported value type for filtering"

/-- `FilterCondition::compare_values` from `src/parallel/mod.rs`
(lines 409-417): per-kind comparison, with every cross-kind pair (and
the NaN fallback, which cannot fire on finite doubles) resolving to
`Equal`. -/
def fc_compare_values : ValueEnum → ValueEnum → Ordering
  | .Int x, .Int y => if x < y then .lt else if y < x then .gt else .eq
  | .Float x, .Float y => if x < y then .lt else if y < x then .gt else .eq
  | .Str x, .Str y => compare x y
  | .Bool x, .Bool y =>
    if x = y then .eq else if x = false then .lt else .gt
  | _, _ => .eq

/-- `FilterCondition::evaluate` from `src/parallel/mod.rs`
(lines 397-407): map the comparison `Ordering` through the condition;
unknown conditions (including `in`/`not_in`) yield `false`. -/
def fc_evaluate (condition : String) (value val : ValueEnum) : Bool :=
  match condition with
  | "==" => fc_compare_values val value == .eq
  | "!=" => fc_compare_values val value != .eq
  | ">" => fc_compare_values val value == .gt
  | "<" => fc_compare_values val value == .lt
  | ">=" => fc_compare_values val value != .lt
  | "<=" => fc_compare_values val value != .gt
  | _ => false

/-- The keep-mask of `ParallelOps::parallel_filter`
(`src/parallel/mod.rs` lines 130-138): one boolean per row index, null
slots map to `false`. -/
def filter_mask (col : TinyColumn) (n : ℕ) (condition : String)
    (value : ValueEnum) : List Bool :=
  (List.range n).map (fun i =>
    match get_value_at_index col i with
    | some v => fc_evaluate condition value v
    | none => false)

/-- `ParallelOps::filter_column` from `src/parallel/mod.rs`
(lines 280-318): apply the mask; only the four non-nullable non-mixed
kinds are supported. -/
def filter_column (col : TinyColumn) (mask : List Bool) :
    Except String TinyColumn :=
  match col with
  | .Int v => .ok (.Int ((v.enum.filter (fun p => mask.getD p.1 false)).map (·.2)))
  | .Float v => .ok (.Float ((v.enum.filter (fun p => mask.getD p.1 false)).map (·.2)))
  | .Str v => .ok (.Str ((v.enum.filter (fun p => mask.getD p.1 false)).map (·.2)))
  | .Bool v => .ok (.Bool ((v.enum.filter (fun p => mask.getD p.1 false)).map (·.2)))
  | _ => .error "Unsupported column type for parallel filtering"

/-- `ParallelOps::apply_mask` from `src/parallel/mod.rs`
(lines 264-278). -/
def apply_mask (f : TinyFrame) (mask : List Bool) :
    Except String TinyFrame := do
  let cols ← f.columns.mapM
    (fun p => (filter_column p.2 mask).map (fun c => (p.1, c)))
  pure ⟨cols, (mask.filter id).length, f.pyObjects⟩

/-- `ParallelOps::parallel_filter` from `src/parallel/mod.rs`
(lines 115-142). -/
def parallel_filter (f : TinyFrame) (column : String) (condition : String)
    (value : PyVal) : Except String TinyFrame := do
  match List.lookup column f.columns with
  | none => .error "Column not found"
  | some col => do
    let value_enum ← convert_py_value value
    apply_mask f (filter_mask col f.length condition value_enum)

end ParallelOps

namespace ParallelOps

/-- `ParallelOps::calculate_sum_for_indices` from `src/parallel/mod.rs`
(lines 210-222): sum of the values at `indices` (nulls skipped, ints
cast to float); every unsupported column kind sums to `0.0`. -/
def calculate_sum_for_indices (col : TinyColumn) (indices : List ℕ) : ℚ :=
  match col with
  | .Int v => (indices.map (fun i => ((v.getD i 0 : ℤ) : ℚ))).sum
  | .Float v => (indices.map (fun i => v.getD i 0)).sum
  | .OptInt v =>
    (indices.filterMap (fun i => (v.getD i none).map (fun x => ((x : ℤ) : ℚ)))).sum
  | .OptFloat v => (indices.filterMap (fun i => v.getD i none)).sum
  | _ => 0

/-- The key tuple built for one row inside
`ParallelOps::parallel_groupby_sum` (`src/parallel/mod.rs` lines 32-38):
group-key columns are read through `get_value_at_index`, and both a
missing column and a null value are silently dropped from the tuple
(`filter_map`). -/
def group_key_of (f : TinyFrame) (group_keys : List String) (i : ℕ) :
    List ValueEnum :=
  group_keys.filterMap (fun c =>
    (List.lookup c f.columns).bind (fun col => get_value_at_index col i))

/-- The grouping map of `ParallelOps::parallel_groupby_sum`
(`src/parallel/mod.rs` lines 29-49): row indices pushed onto the entry
of their key tuple.  The rayon fold/reduce produces the same key → index
multiset as this sequential insertion-order fold. -/
def group_rows (f : TinyFrame) (group_keys : List String) :
    List (List ValueEnum × List ℕ) :=
  (List.range f.length).foldl
    (fun m i => entryPush m (group_key_of f group_keys i) i) []

/-- The `results` vector of `ParallelOps::parallel_groupby_sum`
(`src/parallel/mod.rs` lines 52-58): each group key paired with the sum
over the group's row indices. -/
def group_sums (f : TinyFrame) (group_keys : List String)
    (value_col : TinyColumn) : List (List ValueEnum × ℚ) :=
  (group_rows f group_keys).map
    (fun p => (p.1, calculate_sum_for_indices value_col p.2))

/-- `ParallelOps::create_result_frame` from `src/parallel/mod.rs`
(lines 230-262): one `Mixed` column per group key holding the i-th key
component of each result row (components beyond a truncated key are
simply not pushed), then the value column inserted as `Float`
(overwriting a key column of the same name), with one row per result. -/
def create_result_frame (results : List (List ValueEnum × ℚ))
    (group_keys : List String) (value_column : String) : TinyFrame :=
  if results = [] then TinyFrame.new
  else
    let key_cols := group_keys.enum.foldl
      (fun acc p =>
        assocInsert acc p.2
          (.Mixed (results.filterMap (fun r => r.1.get? p.1))))
      []
    let cols := assocInsert key_cols value_column
      (.Float (results.map (·.2)))
    ⟨cols, results.length, []⟩

/-- `ParallelOps::parallel_groupby_sum` from `src/parallel/mod.rs`
(lines 11-62). -/
def parallel_groupby_sum (f : TinyFrame) (group_keys : List String)
    (value_column : String) : Except String TinyFrame := do
  if group_keys = [] then .error "Group keys cannot be empty"
  else
    match List.lookup value_column f.columns with
    | none => .error "Column not found"
    | some value_col =>
      pure (create_result_frame (group_sums f group_keys value_col)
        group_keys value_column)

end ParallelOps

namespace ChunkedProcessor

/-- `ChunkedProcessor::chunk_column` from `src/chunked/mod.rs`
(lines 194-245): the slice `v[start..end]` of every payload vector. -/
def chunk_column (col : TinyColumn) (start fin : ℕ) : TinyColumn :=
  match col with
  | .Int v => .Int ((v.drop start).take (fin - start))
  | .Float v => .Float ((v.drop start).take (fin - start))
  | .Str v => .Str ((v.drop start).take (fin - start))
  | .Bool v => .Bool ((v.drop start).take (fin - start))
  | .PyObject v => .PyObject ((v.drop start).take (fin - start))
  | .Mixed v => .Mixed ((v.drop start).take (fin - start))
  | .OptInt v => .OptInt ((v.drop start).take (fin - start))
  | .OptFloat v => .OptFloat ((v.drop start).take (fin - start))
  | .OptStr v => .OptStr ((v.drop start).take (fin - start))
  | .OptBool v => .OptBool ((v.drop start).take (fin - start))
  | .OptPyObject v => .OptPyObject ((v.drop start).take (fin - start))
  | .OptMixed v => .OptMixed ((v.drop start).take (fin - start))

/-- `ChunkedProcessor::create_chunk` from `src/chunked/mod.rs`
(lines 178-192). -/
def create_chunk (f : TinyFrame) (start fin : ℕ) : TinyFrame :=
  ⟨f.columns.map (fun p => (p.1, chunk_column p.2 start fin)),
    fin - start, f.pyObjects⟩

/-- The chunk count `(frame.length + chunk_size - 1) / chunk_size`. -/
def num_chunks (n chunk_size : ℕ) : ℕ := (n + chunk_size - 1) / chunk_size

/-- The `aggregated` map of `ChunkedProcessor::merge_groupby_results`
(`src/chunked/mod.rs` lines 334-351): for every row of every chunk
result, the key tuple re-extracted from the chunk's columns
(`filter_map`, nulls and missing columns dropped) accumulates the
corresponding entry of the `Float` value column; rows of a chunk whose
value column is missing or not `Float` contribute nothing. -/
def merge_aggregate (chunk_results : List TinyFrame)
    (group_keys : List String) (value_column : String) :
    List (List ValueEnum × ℚ) :=
  chunk_results.foldl
    (fun agg chunk =>
      (List.range chunk.length).foldl
        (fun agg i =>
          let key := group_keys.filterMap (fun c =>
            (List.lookup c chunk.columns).bind
              (fun col => ParallelOps.get_value_at_index col i))
          match List.lookup value_column chunk.columns with
          | some (TinyColumn.Float values) => entryAdd agg key (values.getD i 0)
          | _ => agg)
        agg)
    []

/-- `ChunkedProcessor::merge_groupby_results` from `src/chunked/mod.rs`
(lines 324-377): build the aggregated key → total map, then render it as
a frame the same way `create_result_frame` does (Mixed key columns from
the surviving key components, `Float` totals, fresh side table). -/
def merge_groupby_results (chunk_results : List TinyFrame)
    (group_keys : List String) (value_column : String) : TinyFrame :=
  if chunk_results = [] then TinyFrame.new
  else
    let aggregated := merge_aggregate chunk_results group_keys value_column
    let key_cols := group_keys.enum.foldl
      (fun acc p =>
        assocInsert acc p.2
          (.Mixed (aggregated.filterMap (fun r => r.1.get? p.1))))
      []
    let cols := assocInsert key_cols value_column
      (.Float (aggregated.map (·.2)))
    ⟨cols, aggregated.length, []⟩

/-- The list of per-chunk group-by results inside
`ChunkedProcessor::chunked_groupby_sum` (`src/chunked/mod.rs`
lines 56-66): chunk `ci` covers rows `[ci*cs, min(ci*cs+cs, n))`. -/
def chunk_results (cs : ℕ) (f : TinyFrame) (group_keys : List String)
    (value_column : String) : Except String (List TinyFrame) :=
  (List.range (num_chunks f.length cs)).mapM
    (fun ci =>
      ParallelOps.parallel_groupby_sum
        (create_chunk f (ci * cs) (Nat.min (ci * cs + cs) f.length))
        group_keys value_column)

/-- `ChunkedProcessor::chunked_groupby_sum` from `src/chunked/mod.rs`
(lines 45-70): frames no longer than the chunk size are delegated to the
parallel operator directly; otherwise each chunk is aggregated and the
per-chunk results are merged. -/
def chunked_groupby_sum (cs : ℕ) (f : TinyFrame) (group_keys : List String)
    (value_column : String) : Except String TinyFrame := do
  if f.length ≤ cs then
    ParallelOps.parallel_groupby_sum f group_keys value_column
  else do
    let crs ← chunk_results cs f group_keys value_column
    pure (merge_groupby_results crs group_keys value_column)

/-- The per-key totals observable from `chunked_groupby_sum`: the
delegated `group_sums` map below the chunk-size threshold, the
`aggregated` merge map above it.  This is the map the chunked result
frame is rendered from. -/
def chunked_totals (cs : ℕ) (f : TinyFrame) (group_keys : List String)
    (value_column : String) : Except String (List (List ValueEnum × ℚ)) := do
  if f.length ≤ cs then
    match List.lookup value_column f.columns with
    | none => .error "Column not found"
    | some value_col => pure (ParallelOps.group_sums f group_keys value_col)
  else do
    let crs ← chunk_results cs f group_keys value_column
    pure (merge_aggregate crs group_keys value_column)

end ChunkedProcessor

namespace SimdOps

/-- The `chunks_exact(4)` decomposition used by the x86-64 SIMD paths in
`src/simd/mod.rs`: the list of complete 4-element chunks and the
remainder. -/
def chunks_exact4 : List ℚ → List (ℚ × ℚ × ℚ × ℚ) × List ℚ
  | a :: b :: c :: d :: rest =>
    let r := chunks_exact4 rest
    ((a, b, c, d) :: r.1, r.2)
  | rest => ([], rest)

/-- The value extracted from the `__m256d` accumulator of
`SimdOps::sum_f64` (`src/simd/mod.rs` lines 47-66): the four lanes are
accumulated chunk-wise and then added together, and the remainder is
summed on top.  Arithmetic is exact on the `ℚ` model of finite
doubles. -/
def simd_accum_sum (v : List ℚ) : ℚ :=
  let r := chunks_exact4 v
  let lanes := r.1.foldl
    (fun (acc : ℚ × ℚ × ℚ × ℚ) c =>
      (acc.1 + c.1, acc.2.1 + c.2.1, acc.2.2.1 + c.2.2.1, acc.2.2.2 + c.2.2.2))
    (0, 0, 0, 0)
  lanes.1 + lanes.2.1 + lanes.2.2.1 + lanes.2.2.2 + r.2.sum

/-- `SimdOps::sum_f64` from `src/simd/mod.rs` (lines 42-72): short
inputs use the plain scalar sum, longer inputs the vector
accumulation. -/
def sum_f64 (data : List ℚ) : ℚ :=
  if data.length < 4 then data.sum else simd_accum_sum data

/-- `SimdOps::mean_f64` from `src/simd/mod.rs` (lines 75-78).  On the
exact model `0/0 = 0`, matching the source only for nonempty input
(empty input yields NaN in Rust; no verified statement evaluates the
mean of an empty list). -/
def mean_f64 (data : List ℚ) : ℚ := sum_f64 data / data.length

/-- `SimdOps::variance_f64` from `src/simd/mod.rs` (lines 181-189):
`0.0` for fewer than two elements, otherwise the vector sum of squared
deviations from the mean divided by `len - 1`. -/
def variance_f64 (data : List ℚ) : ℚ :=
  if data.length < 2 then 0
  else
    let mean := mean_f64 data
    sum_f64 (data.map (fun x => (x - mean) ^ 2)) / (data.length - 1 : ℕ)

end SimdOps

namespace TinyGroupBy

/-- The `values` extraction shared by
`TinyGroupBy::calculate_variance_with_mean` and `calculate_median`
(`src/groupby.rs` lines 291-297): the non-null numeric values at the
group's row indices, `none` for unsupported column kinds. -/
def numeric_values (column : TinyColumn) (row_indices : List ℕ) :
    Option (List ℚ) :=
  match column with
  | .Int v => some (row_indices.map (fun i => ((v.getD i 0 : ℤ) : ℚ)))
  | .Float v => some (row_indices.map (fun i => v.getD i 0))
  | .OptInt v =>
    some (row_indices.filterMap
      (fun i => (v.getD i none).map (fun x => ((x : ℤ) : ℚ))))
  | .OptFloat v => some (row_indices.filterMap (fun i => v.getD i none))
  | _ => none

/-- `TinyGroupBy::calculate_mean` from `src/groupby.rs` (lines 207-237):
for plain columns the sum over the indices divided by the index count;
for optional columns `None` when every value is null, else the sum of
non-null values divided by their count.  (For a plain column with an
empty index list Rust produces `0.0/0.0 = NaN`; on the exact model this
is `0`.  No verified statement evaluates that corner: `calculate_var`
discards the mean in exactly that case.) -/
def calculate_mean (column : TinyColumn) (row_indices : List ℕ) :
    Option ℚ :=
  match column with
  | .Int v =>
    some ((row_indices.map (fun i => ((v.getD i 0 : ℤ) : ℚ))).sum /
      (row_indices.length : ℚ))
  | .Float v =>
    some ((row_indices.map (fun i => v.getD i 0)).sum /
      (row_indices.length : ℚ))
  | .OptInt v =>
    let values := row_indices.filterMap
      (fun i => (v.getD i none).map (fun x => ((x : ℤ) : ℚ)))
    if values = [] then none else some (values.sum / (values.length : ℚ))
  | .OptFloat v =>
    let values := row_indices.filterMap (fun i => v.getD i none)
    if values = [] then none else some (values.sum / (values.length : ℚ))
  | _ => none

/-- `TinyGroupBy::calculate_variance_with_mean` from `src/groupby.rs`
(lines 290-307): sum of squared deviations from the supplied mean over
the non-null values, divided by the number of those values (the
population-style `n` divisor). -/
def calculate_variance_with_mean (column : TinyColumn)
    (row_indices : List ℕ) (mean : ℚ) : Option ℚ :=
  match numeric_values column row_indices with
  | none => none
  | some values =>
    if values = [] then none
    else some ((values.map (fun x => (x - mean) ^ 2)).sum /
      (values.length : ℚ))

/-- `TinyGroupBy::calculate_var` from `src/groupby.rs` (lines 285-288). -/
def calculate_var (column : TinyColumn) (row_indices : List ℕ) :
    Option ℚ :=
  (calculate_mean column row_indices).bind
    (calculate_variance_with_mean column row_indices)

end TinyGroupBy

/-- Model of `f64` carrying the IEEE special values, for the claims that
depend on NaN/±Infinity behaviour (finite doubles again idealised as
exact rationals). -/
inductive F64 where
  | finite (q : ℚ)
  | nan
  | inf
  | negInf
deriving DecidableEq

/-- Rust `f64` `PartialEq` (IEEE equality): NaN compares unequal to
everything, including itself.  This is the comparison `#[derive(PartialEq)]`
generates for `ValueEnum::Float` and the one `HashMap` uses to identify
keys (the manual `impl Eq for ValueEnum` in `src/frame/mod.rs` line 51
merely asserts — wrongly, for NaN — that it is an equivalence). -/
def F64.beq : F64 → F64 → Bool
  | .finite a, .finite b => a == b
  | .inf, .inf => true
  | .negInf, .negInf => true
  | _, _ => false

/-- The value written to the hasher by `ValueEnum::hash` for a float
payload (`src/frame/mod.rs` lines 30-43): fixed canonical codes for NaN
and the two infinities; the raw bit pattern of finite doubles is outside
this model (`none`). -/
def F64.hash_write : F64 → Option ℕ
  | .nan => some 0x7ff8000000000000
  | .inf => some 0x7ff0000000000000
  | .negInf => some 0xfff0000000000000
  | .finite _ => none

/-- `ValueEnum` in the NaN-sensitive model. -/
inductive ValueEnumF where
  | Int (i : ℤ)
  | Float (f : F64)
  | Str (s : String)
  | Bool (b : Bool)
  | PyObjectId (id : ℕ)
deriving DecidableEq

/-- The derived `PartialEq` of `ValueEnum` in the NaN-sensitive model:
structural equality except on float payloads, which use IEEE
equality. -/
def beqValueEnumF : ValueEnumF → ValueEnumF → Bool
  | .Int a, .Int b => a == b
  | .Float a, .Float b => a.beq b
  | .Str a, .Str b => a == b
  | .Bool a, .Bool b => a == b
  | .PyObjectId a, .PyObjectId b => a == b
  | _, _ => false

/-- Equality of `Vec<ValueEnum>` keys under the derived `PartialEq`. -/
def keyBeqF : List ValueEnumF → List ValueEnumF → Bool
  | [], [] => true
  | a :: as_, b :: bs => beqValueEnumF a b && keyBeqF as_ bs
  | _, _ => false

/-- `HashMap::entry(key).or_insert_with(Vec::new).push(i)` with the
derived `PartialEq` deciding whether an existing entry matches: a key
that compares unequal to every stored key (as a NaN-containing key does,
even to an identical one) starts a fresh entry. -/
def entryPushF (m : List (List ValueEnumF × List ℕ)) (k : List ValueEnumF)
    (i : ℕ) : List (List ValueEnumF × List ℕ) :=
  if (m.find? (fun p => keyBeqF p.1 k)).isSome then
    m.map (fun p => if keyBeqF p.1 k then (p.1, p.2 ++ [i]) else p)
  else m ++ [(k, [i])]

/-- `JoinOps::build_key_map` restricted to the NaN-sensitive fragment it
is exercised on for claim C9: a frame of `Float` columns (column model
`List F64`).  Row keys are built exactly as in `build_key_map`
(a `Float` column slot is never null, so the tuple is total), and rows
are inserted with `entryPushF`. -/
def build_key_map_f (cols : List (String × List F64)) (n : ℕ)
    (columns : List String) : List (List ValueEnumF × List ℕ) :=
  (List.range n).foldl
    (fun m i =>
      entryPushF m
        (columns.filterMap (fun c =>
          (List.lookup c cols).bind
            (fun v => (v.get? i).map ValueEnumF.Float)))
        i)
    []

namespace Convert

/-- The scalar kinds recorded in `types_present` by `from_dicts_impl`
(`src/frame/convert.rs` lines 36-53). -/
inductive PyKind where
  | kBool
  | kInt
  | kFloat
  | kStr
  | kObj
deriving DecidableEq

/-- The per-row classification of `from_dicts_impl`
(`src/frame/convert.rs` lines 26-57): a missing key or a Python `None`
contributes a null; otherwise the value is tested as bool first (before
int, since Python bools are ints), then int, float, string, and
everything else is boxed as an opaque object under its pointer id. -/
def classify_val : Option PyVal → Option ValueEnum
  | Option.none => none
  | some .none => none
  | some (.bool b) => some (.Bool b)
  | some (.int i) => some (.Int i)
  | some (.float q) => some (.Float q)
  | some (.str s) => some (.Str s)
  | some (.obj id) => some (.PyObjectId id)

/-- The kind tag inserted into `types_present` for a classified value. -/
def kind_of : ValueEnum → PyKind
  | .Bool _ => .kBool
  | .Int _ => .kInt
  | .Float _ => .kFloat
  | .Str _ => .kStr
  | .PyObjectId _ => .kObj

/-- The `value_enum_vals` vector accumulated for column `c`
(`src/frame/convert.rs` lines 24-58): one classified slot per record. -/
def col_enum_vals (records : List (List (String × PyVal))) (c : String) :
    List (Option ValueEnum) :=
  records.map (fun r => classify_val (List.lookup c r))

/-- The `types_present` set (`HashSet` of kinds) for a column, modelled
as the deduplicated list of kinds seen. -/
def types_present (vals : List (Option ValueEnum)) : List PyKind :=
  (vals.filterMap (fun o => o.map kind_of)).dedup

/-- The `has_none` flag for a column. -/
def has_none (vals : List (Option ValueEnum)) : Bool :=
  vals.any (·.isNone)

/-- The column-resolution rule of `from_dicts_impl`
(`src/frame/convert.rs` lines 60-85): exactly one kind and no null gives
the plain typed column; exactly one kind with nulls gives the optional
typed column; otherwise a mixed column, optional when any null was seen.
The `unreachable!()`/`expect` extraction arms are modelled with junk
defaults (they cannot fire in the branches that use them). -/
def resolve_column (vals : List (Option ValueEnum)) : TinyColumn :=
  let tp := types_present vals
  if tp.length = 1 ∧ ¬ has_none vals then
    match tp.headD .kInt with
    | .kInt => .Int (vals.map (fun o =>
        match o with | some (.Int i) => i | _ => 0))
    | .kFloat => .Float (vals.map (fun o =>
        match o with | some (.Float q) => q | _ => 0))
    | .kBool => .Bool (vals.map (fun o =>
        match o with | some (.Bool b) => b | _ => false))
    | .kStr => .Str (vals.map (fun o =>
        match o with | some (.Str s) => s | _ => ""))
    | .kObj => .PyObject (vals.map (fun o =>
        match o with | some (.PyObjectId id) => id | _ => 0))
  else if tp.length = 1 ∧ has_none vals then
    match tp.headD .kInt with
    | .kInt => .OptInt (vals.map (fun o => o.bind (fun v =>
        match v with | .Int i => some i | _ => none)))
    | .kFloat => .OptFloat (vals.map (fun o => o.bind (fun v =>
        match v with | .Float q => some q | _ => none)))
    | .kBool => .OptBool (vals.map (fun o => o.bind (fun v =>
        match v with | .Bool b => some b | _ => none)))
    | .kStr => .OptStr (vals.map (fun o => o.bind (fun v =>
        match v with | .Str s => some s | _ => none)))
    | .kObj => .OptPyObject (vals.map (fun o => o.bind (fun v =>
        match v with | .PyObjectId id => some id | _ => none)))
  else if has_none vals then .OptMixed vals
  else .Mixed (vals.map (fun o => o.getD (.Int 0)))

/-- The `py_objects` side table accumulated by `from_dicts_impl`
(`src/frame/convert.rs` lines 49-50): every boxed object value, keyed by
its pointer id. -/
def py_objects_of (records : List (List (String × PyVal)))
    (col_names : List String) : List (ℕ × PyVal) :=
  col_names.flatMap (fun c =>
    records.filterMap (fun r =>
      match List.lookup c r with
      | some (PyVal.obj oid) => some (oid, PyVal.obj oid)
      | _ => none))

/-- `from_dicts_impl` from `src/frame/convert.rs` (lines 6-91): empty
input is a value error; the column names are the keys of the first
record, in order; each column is classified, resolved and inserted. -/
def from_dicts (records : List (List (String × PyVal))) :
    Except String TinyFrame :=
  if records = [] then .error "Input list is empty"
  else
    let col_names := (records.headD []).map (·.1)
    let columns := col_names.foldl
      (fun acc c => assocInsert acc c (resolve_column (col_enum_vals records c)))
      []
    .ok ⟨columns, records.length, py_objects_of records col_names⟩

/-- The per-cell rendering of `to_dicts_impl`
(`src/frame/convert.rs` lines 98-130): nulls become Python `None`,
opaque handles are resolved through the side table (missing handles
defensively become `None`). -/
def render_value (py_objects : List (ℕ × PyVal)) (col : TinyColumn)
    (i : ℕ) : PyVal :=
  match col with
  | .Int v => .int (v.getD i 0)
  | .Float v => .float (v.getD i 0)
  | .Bool v => .bool (v.getD i false)
  | .Str v => .str (v.getD i "")
  | .OptInt v => (v.getD i none).elim .none .int
  | .OptFloat v => (v.getD i none).elim .none .float
  | .OptBool v => (v.getD i none).elim .none .bool
  | .OptStr v => (v.getD i none).elim .none .str
  | .PyObject v => (List.lookup (v.getD i 0) py_objects).getD .none
  | .OptPyObject v =>
    match v.getD i none with
    | some id => (List.lookup id py_objects).getD .none
    | none => .none
  | .Mixed v =>
    match v.getD i (.Int 0) with
    | .Int x => .int x
    | .Float x => .float x
    | .Bool x => .bool x
    | .Str x => .str x
    | .PyObjectId id => (List.lookup id py_objects).getD .none
  | .OptMixed v =>
    match v.getD i none with
    | some (.Int x) => .int x
    | some (.Float x) => .float x
    | some (.Bool x) => .bool x
    | some (.Str x) => .str x
    | some (.PyObjectId id) => (List.lookup id py_objects).getD .none
    | none => .none

/-- `to_dicts_impl` from `src/frame/convert.rs` (lines 93-136): one
dictionary per row, one entry per column. -/
def to_dicts (f : TinyFrame) : List (List (String × PyVal)) :=
  (List.range f.length).map (fun i =>
    f.columns.map (fun p => (p.1, render_value f.pyObjects p.2 i)))

end Convert

/-- The table invariant of spec §3: every column's length equals the
frame's row count. -/
def TinyFrame.col_invariant (f : TinyFrame) : Prop :=
  ∀ p ∈ f.columns, TinyColumn.len p.2 = f.length

instance (f : TinyFrame) : Decidable f.col_invariant := by
  unfold TinyFrame.col_invariant; infer_instance

/-- Specification-side per-row contribution to a group sum: the numeric
value of row `i`, with null slots and unsupported column kinds
contributing `0`. -/
def val_at (col : TinyColumn) (i : ℕ) : ℚ :=
  match col with
  | .Int v => ((v.getD i 0 : ℤ) : ℚ)
  | .Float v => v.getD i 0
  | .OptInt v => ((v.getD i none).map (fun x => ((x : ℤ) : ℚ))).getD 0
  | .OptFloat v => (v.getD i none).getD 0
  | _ => 0

/-- Specification-side sort key of row `i`: the numeric value of each
sort column in order (string/bool/mixed/object columns and null slots
give `none`). -/
def sort_key_vec (f : TinyFrame) (by_cols : List String) (i : ℕ) :
    List (Option ℚ) :=
  by_cols.map (fun c =>
    (List.lookup c f.columns).bind
      (fun col => TinyFrame.get_value_at_index col i))

/-- Specification-side strict order on one sort key: numeric on present
values, with an absent value strictly after every present value. -/
def null_last_lt : Option ℚ → Option ℚ → Prop
  | some x, some y => x < y
  | some _, none => True
  | none, _ => False

instance : DecidableRel null_last_lt := by
  intro a b; cases a <;> cases b <;> simp [null_last_lt] <;> infer_instance

/-- Specification-side weak lexicographic order on sort-key vectors: a
strictly smaller entry at the first difference, ties falling through to
the remaining keys. -/
def keys_lex_le : List (Option ℚ) → List (Option ℚ) → Prop
  | [], _ => True
  | _ :: _, [] => True
  | a :: as_, b :: bs => null_last_lt a b ∨ (a = b ∧ keys_lex_le as_ bs)

instance keysLexLeDec : ∀ ks ks', Decidable (keys_lex_le ks ks')
  | [], _ => by unfold keys_lex_le; infer_instance
  | _ :: _, [] => by unfold keys_lex_le; infer_instance
  | a :: as_, b :: bs =>
    have : Decidable (keys_lex_le as_ bs) := keysLexLeDec as_ bs
    by unfold keys_lex_le; infer_instance

/-- Lexicographic comparison of sort-key vectors through
`compare_for_sort`, the comparator `sort_values` evaluates on the key
vectors of two rows when all sort columns exist. -/
def keys_cmp : List (Option ℚ) → List (Option ℚ) → Ordering
  | [], _ => .eq
  | _ :: _, [] => .eq
  | a :: as_, b :: bs =>
    let c := TinyFrame.compare_for_sort a b
    if c ≠ .eq then c else keys_cmp as_ bs

/-- The row indices kept by a boolean mask (the rows surviving
`ParallelOps::apply_mask`). -/
def mask_true_indices (mask : List Bool) : List ℕ :=
  (mask.enum.filter (·.2)).map (·.1)

/-- Whether a column is one of the nullable (optional) variants. -/
def isOptionalCol : TinyColumn → Bool
  | .OptInt _ => true
  | .OptFloat _ => true
  | .OptStr _ => true
  | .OptBool _ => true
  | .OptMixed _ => true
  | .OptPyObject _ => true
  | _ => false

/-! ## Theorems -/

/-- Structure of `drop_columns_go`: the drop list splits into the
processed prefix (whose columns have been erased from the map) and the
unprocessed remainder, which is empty on success and starts with the
missing column on failure. -/
theorem drop_columns_go_spec (ds : List String) :
    ∀ cols, ∃ pre post, ds = pre ++ post ∧
      (TinyFrame.drop_columns_go cols ds).2 =
        pre.foldl (fun cs d => cs.eraseP (fun p => p.1 == d)) cols ∧
      (((TinyFrame.drop_columns_go cols ds).1 = none ∧ post = []) ∨
        ∃ b post', (TinyFrame.drop_columns_go cols ds).1 = some b ∧
          post = b :: post' ∧
          (List.lookup b (TinyFrame.drop_columns_go cols ds).2).isNone) := by
  induction ds with
  | nil =>
    intro cols
    exact ⟨[], [], rfl, rfl, Or.inl ⟨rfl, rfl⟩⟩
  | cons d ds ih =>
    intro cols
    by_cases h : (List.lookup d cols).isSome
    · obtain ⟨pre, post, hsplit, hcols, herr⟩ :=
        ih (cols.eraseP (fun p => p.1 == d))
      refine ⟨d :: pre, post, by simp [hsplit], ?_, ?_⟩
      · simpa [TinyFrame.drop_columns_go, h] using hcols
      · simpa [TinyFrame.drop_columns_go, h] using herr
    · refine ⟨[], d :: ds, rfl, by simp [TinyFrame.drop_columns_go, h], ?_⟩
      refine Or.inr ⟨d, ds, by simp [TinyFrame.drop_columns_go, h], rfl, ?_⟩
      have hnone : List.lookup d cols = none := by
        cases hl : List.lookup d cols with
        | none => rfl
        | some v => exact absurd (by simp [hl]) h
      simp [TinyFrame.drop_columns_go, h, hnone]

/-- C2, counterexample.  The claim asserts that a `drop_columns` call
naming a missing column leaves the table completely unchanged.  On the
frame with the single column `a`, the call `drop_columns(["a", "b"])`
does return the not-found error for `b`, but the column `a` has already
been removed: the surviving column map is empty, not the original one. -/
theorem drop_columns_not_atomic_counterexample :
    (TinyFrame.drop_columns ⟨[("a", .Int [])], 0, []⟩ ["a", "b"]).1 = some "b" ∧
      (TinyFrame.drop_columns ⟨[("a", .Int [])], 0, []⟩ ["a", "b"]).2.columns = [] ∧
      (TinyFrame.drop_columns ⟨[("a", .Int [])], 0, []⟩ ["a", "b"]).2 ≠
        ⟨[("a", .Int [])], 0, []⟩ := by
  refine ⟨by decide, by decide, by decide⟩

/-- C2, amended.  `drop_columns` processes the list in order: it returns
a not-found error at the first name that is missing at that point, and
exactly the names listed before it have been removed (all of them when
no name is missing); the names from the failing one onwards are
retained.  The call is not all-or-nothing: the removals performed before
the error persist. -/
theorem drop_columns_first_missing_partial (f : TinyFrame) (ds : List String) :
    ∃ pre post, ds = pre ++ post ∧
      (TinyFrame.drop_columns f ds).2.columns =
        pre.foldl (fun cs d => cs.eraseP (fun p => p.1 == d)) f.columns ∧
      (((TinyFrame.drop_columns f ds).1 = none ∧ post = []) ∨
        ∃ b post', (TinyFrame.drop_columns f ds).1 = some b ∧
          post = b :: post' ∧
          (List.lookup b (TinyFrame.drop_columns f ds).2.columns).isNone) := by
  obtain ⟨pre, post, hsplit, hcols, herr⟩ := drop_columns_go_spec ds f.columns
  exact ⟨pre, post, hsplit, hcols, herr⟩

/-- C3, evaluation at the failing input.  `build_key_map` on a frame
whose single join column holds one null value: the claim (and the
source's own comment) says the row is excluded from the key map, but the
`continue` in the source only skips the null column value, so the row is
inserted under the truncated (here empty) key tuple. -/
theorem build_key_map_keeps_null_key_row :
    JoinOps.build_key_map ⟨[("k", .OptInt [none])], 1, []⟩ ["k"]
      = [([], [0])] := by decide

/-- C5, evaluation at the failing input.  Both one-row inputs satisfy
the column-length invariant, the cross join succeeds, but because the
two frames share the column name `a` the per-pair loop appends both the
left and the right value into the same result column: the output frame
has row count 1 while its only column holds 2 values. -/
theorem cross_join_shared_name_breaks_invariant :
    TinyFrame.col_invariant ⟨[("a", .Int [1])], 1, []⟩ ∧
      TinyFrame.col_invariant ⟨[("a", .Int [2])], 1, []⟩ ∧
      JoinOps.cross_join ⟨[("a", .Int [1])], 1, []⟩ ⟨[("a", .Int [2])], 1, []⟩
        = .ok ⟨[("a", .Int [1, 2])], 1, []⟩ ∧
      ¬ TinyFrame.col_invariant ⟨[("a", .Int [1, 2])], 1, []⟩ := by
  refine ⟨by decide, by decide, by decide, by decide⟩

/-- The four-lane accumulator fold sums to the accumulator total plus
the per-chunk totals. -/
theorem lanes_foldl_sum (cs : List (ℚ × ℚ × ℚ × ℚ)) :
    ∀ acc : ℚ × ℚ × ℚ × ℚ,
      (let l := cs.foldl
        (fun (acc : ℚ × ℚ × ℚ × ℚ) c =>
          (acc.1 + c.1, acc.2.1 + c.2.1, acc.2.2.1 + c.2.2.1,
            acc.2.2.2 + c.2.2.2)) acc
      l.1 + l.2.1 + l.2.2.1 + l.2.2.2) =
        acc.1 + acc.2.1 + acc.2.2.1 + acc.2.2.2 +
          (cs.map (fun c => c.1 + c.2.1 + c.2.2.1 + c.2.2.2)).sum := by
  induction cs with
  | nil => intro acc; simp
  | cons c cs ih =>
    intro acc
    simp only [List.foldl_cons, List.map_cons, List.sum_cons]
    rw [ih]
    ring

/-- The `chunks_exact(4)` decomposition conserves the total sum. -/
theorem chunks_exact4_sum (v : List ℚ) :
    ((SimdOps.chunks_exact4 v).1.map
        (fun c => c.1 + c.2.1 + c.2.2.1 + c.2.2.2)).sum +
      (SimdOps.chunks_exact4 v).2.sum = v.sum := by
  induction v using SimdOps.chunks_exact4.induct with
  | case1 a b c d rest ih =>
    simp only [SimdOps.chunks_exact4, List.map_cons, List.sum_cons]
    linarith [ih]
  | case2 rest h =>
    match rest, h with
    | [], _ => simp [SimdOps.chunks_exact4]
    | [a], _ => simp [SimdOps.chunks_exact4]
    | [a, b], _ => simp [SimdOps.chunks_exact4]
    | [a, b, c], _ => simp [SimdOps.chunks_exact4]
    | a :: b :: c :: d :: rest', h => exact (h a b c d rest' rfl).elim

/-- The vector sum kernel agrees with the plain list sum (scalar
oracle) on the exact model. -/
theorem sum_f64_eq_sum (data : List ℚ) : SimdOps.sum_f64 data = data.sum := by
  unfold SimdOps.sum_f64
  by_cases h : data.length < 4
  · simp [h]
  · simp only [h, if_false]
    unfold SimdOps.simd_accum_sum
    simp only []
    rw [lanes_foldl_sum]
    simpa using chunks_exact4_sum data

/-- Closed form of the SIMD variance kernel for inputs of length at
least two: sum of squared deviations from the mean over `n - 1`. -/
theorem variance_f64_sample (data : List ℚ) (h : 2 ≤ data.length) :
    SimdOps.variance_f64 data =
      (data.map (fun x => (x - data.sum / data.length) ^ 2)).sum /
        ((data.length : ℚ) - 1) := by
  unfold SimdOps.variance_f64
  have h2 : ¬ data.length < 2 := by omega
  simp only [h2, if_false]
  rw [sum_f64_eq_sum]
  unfold SimdOps.mean_f64
  rw [sum_f64_eq_sum, Nat.cast_sub (by omega)]
  norm_num

/-- `TinyGroupBy::calculate_mean` on a supported column whose group has
at least one non-null value is the mean of the non-null values. -/
theorem calculate_mean_eq (column : TinyColumn) (row_indices : List ℕ)
    (values : List ℚ)
    (h : TinyGroupBy.numeric_values column row_indices = some values)
    (hne : values ≠ []) :
    TinyGroupBy.calculate_mean column row_indices =
      some (values.sum / values.length) := by
  cases column <;>
    simp only [TinyGroupBy.numeric_values, Option.some.injEq,
      reduceCtorEq] at h
  case Int v =>
    subst h
    simp [TinyGroupBy.calculate_mean]
  case Float v =>
    subst h
    simp [TinyGroupBy.calculate_mean]
  case OptInt v =>
    rw [TinyGroupBy.calculate_mean, h]
    simp [hne]
  case OptFloat v =>
    rw [TinyGroupBy.calculate_mean, h]
    simp [hne]

/-- `TinyGroupBy::calculate_var` on a supported column whose group has
at least one non-null value: sum of squared deviations from the group
mean divided by the count of non-null values (the `n` divisor). -/
theorem calculate_var_population (column : TinyColumn)
    (row_indices : List ℕ) (values : List ℚ)
    (h : TinyGroupBy.numeric_values column row_indices = some values)
    (hne : values ≠ []) :
    TinyGroupBy.calculate_var column row_indices =
      some ((values.map (fun x => (x - values.sum / values.length) ^ 2)).sum /
        (values.length : ℚ)) := by
  unfold TinyGroupBy.calculate_var
  rw [calculate_mean_eq column row_indices values h hne]
  simp [TinyGroupBy.calculate_variance_with_mean, h, hne]

/-- C8.  The SIMD-layer variance kernel computes sample variance: for
inputs of length at least 2 it is the sum of squared deviations from the
mean divided by `n - 1`, and `0` for shorter inputs; the group-by
variance aggregate instead divides by the count `n` of non-null values
in the group.  The final two conjuncts exhibit the two divisors giving
different results on the same data, so the conventions are genuinely
distinct. -/
theorem simd_sample_vs_groupby_population_variance :
    (∀ data : List ℚ, 2 ≤ data.length →
        SimdOps.variance_f64 data =
          (data.map (fun x => (x - data.sum / data.length) ^ 2)).sum /
            ((data.length : ℚ) - 1)) ∧
      (∀ data : List ℚ, data.length < 2 → SimdOps.variance_f64 data = 0) ∧
      (∀ column row_indices values,
        TinyGroupBy.numeric_values column row_indices = some values →
          values ≠ [] →
          TinyGroupBy.calculate_var column row_indices =
            some ((values.map
                (fun x => (x - values.sum / values.length) ^ 2)).sum /
              (values.length : ℚ))) ∧
      SimdOps.variance_f64 [0, 2] = 2 ∧
      TinyGroupBy.calculate_var (.Float [0, 2]) [0, 1] = some 1 := by
  refine ⟨variance_f64_sample,
    fun data h => by simp [SimdOps.variance_f64, h],
    calculate_var_population, ?_, ?_⟩
  · rw [variance_f64_sample [0, 2] (by norm_num)]
    norm_num
  · rw [calculate_var_population (.Float [0, 2]) [0, 1] [0, 2]
      (by decide) (by decide)]
    norm_num

/-- C8, witness: the theorem applied at concrete inputs.  The kernel on
`[1, 2, 3]` divides the squared deviations (total 2) by `n - 1 = 2`; the
group-by variance on a nullable column with non-null values `[1, 3]`
divides the same total by the non-null count `n = 2`. -/
theorem simd_sample_vs_groupby_population_variance_witness :
    SimdOps.variance_f64 [1, 2, 3] = 1 ∧
      TinyGroupBy.calculate_var (.OptFloat [some 1, none, some 3]) [0, 1, 2]
        = some 1 := by
  have h := simd_sample_vs_groupby_population_variance
  constructor
  · rw [h.1 [1, 2, 3] (by norm_num)]
    norm_num
  · rw [h.2.2.1 (.OptFloat [some 1, none, some 3]) [0, 1, 2] [1, 3]
      (by decide) (by decide)]
    norm_num

/-- A `foldlM` whose step never fails collapses to the pure `foldl`. -/
theorem foldlM_ok_of_forall {α σ : Type} (f : σ → α → Except String σ)
    (g : σ → α → σ) (l : List α) (h : ∀ a ∈ l, ∀ s, f s a = .ok (g s a)) :
    ∀ s, l.foldlM f s = .ok (l.foldl g s) := by
  induction l with
  | nil => intro s; rfl
  | cons a l ih =>
    intro s
    rw [List.foldlM_cons, h a (by simp) s]
    show List.foldlM f (g s a) l = Except.ok (List.foldl g (g s a) l)
    exact ih (fun a ha s => h a (by simp [ha]) s) (g s a)

/-- The enumerate-and-collect loop shared by the filters: folding over
an enumerated list and appending the indices whose value satisfies the
predicate yields exactly the in-range indices satisfying it. -/
theorem foldl_append_indices {α : Type} (gv : α → Bool) (d : α) :
    ∀ (l : List α) (k : ℕ) (acc : List ℕ),
      (List.enumFrom k l).foldl
          (fun acc p => if gv p.2 then acc ++ [p.1] else acc) acc
        = acc ++ ((List.range l.length).filter
            (fun i => gv (l.getD i d))).map (fun i => k + i) := by
  intro l
  induction l with
  | nil => intro k acc; simp
  | cons x l ih =>
    intro k acc
    rw [List.enumFrom_cons, List.foldl_cons, List.length_cons,
      List.range_succ_eq_map, List.filter_cons]
    simp only [List.getD_cons_zero, List.filter_map, Function.comp_def,
      List.getD_cons_succ]
    by_cases hg : gv x
    · simp only [if_pos hg]
      rw [ih (k + 1) (acc ++ [k])]
      simp only [List.map_cons, Nat.add_zero, List.append_assoc,
        List.singleton_append]
      congr 2
      rw [List.map_map]
      apply List.map_congr_left
      intro a _
      simp only [Function.comp_def]
      omega
    · simp only [if_neg hg]
      rw [ih (k + 1) acc]
      congr 1
      rw [List.map_map]
      apply List.map_congr_left
      intro a _
      simp only [Function.comp_def]
      omega

/-- The first components of the true entries of an enumerated boolean
list are the in-range indices at which the list holds `true`. -/
theorem enum_filter_true_fst (l : List Bool) :
    ∀ k, ((List.enumFrom k l).filter (·.2)).map (·.1)
      = ((List.range l.length).filter (fun i => l.getD i false)).map
          (fun i => k + i) := by
  induction l with
  | nil => intro k; simp
  | cons b l ih =>
    intro k
    rw [List.enumFrom_cons, List.filter_cons, List.length_cons,
      List.range_succ_eq_map, List.filter_cons]
    simp only [List.getD_cons_zero, List.filter_map, Function.comp_def,
      List.getD_cons_succ]
    cases b with
    | true =>
      simp only [if_true]
      rw [List.map_cons, List.map_cons, ih (k + 1)]
      simp only [Nat.add_zero]
      congr 1
      rw [List.map_map]
      apply List.map_congr_left
      intro a _
      simp only [Function.comp_def]
      omega
    | false =>
      simp only [Bool.false_eq_true, if_false]
      rw [ih (k + 1)]
      rw [List.map_map]
      apply List.map_congr_left
      intro a _
      simp only [Function.comp_def]
      omega

/-- The rows kept by a mask computed pointwise over the row range are
the rows satisfying the pointwise predicate. -/
theorem mask_true_indices_map_range (P : ℕ → Bool) (n : ℕ) :
    mask_true_indices ((List.range n).map P) = (List.range n).filter P := by
  unfold mask_true_indices
  rw [show ((List.range n).map P).enum
      = List.enumFrom 0 ((List.range n).map P) from rfl]
  rw [enum_filter_true_fst]
  simp only [List.length_map, List.length_range]
  have hfc : (List.range n).filter
      (fun i => ((List.range n).map P).getD i false)
      = (List.range n).filter P := by
    apply List.filter_congr
    intro i hi
    have hi' := List.mem_range.mp hi
    rw [List.getD_eq_getElem?_getD, List.getElem?_map,
      List.getElem?_range hi']
    rfl
  rw [hfc]
  simp

/-- Row selection of the sequential `TinyFrame::filter` over a plain
`Float` column, given the per-value match as a boolean predicate: the
call succeeds and selects the in-range indices satisfying it. -/
theorem filter_indices_float (cond : String) (q : ℚ) (g : ℚ → Bool)
    (h : ∀ x : ℚ,
      TinyFrame.row_matches cond (.float q) (.Float x) = .ok (g x))
    (v : List ℚ) :
    TinyFrame.filter_indices (.Float v) cond (.float q)
      = .ok ((List.range v.length).filter (fun i => g (v.getD i 0))) := by
  have hshape : ∀ p ∈ (TinyFrame.iter_values (.Float v)).enum,
      ∃ x : ℚ, p.2 = ValueEnum.Float x := by
    intro p hp
    obtain ⟨i, y⟩ := p
    obtain ⟨-, hlt, hy⟩ := List.mem_enumFrom hp
    simp only [TinyFrame.iter_values] at hy
    rw [List.getElem_map] at hy
    exact ⟨_, hy⟩
  have h1 := foldlM_ok_of_forall
    (fun acc p => do
      let m ← TinyFrame.row_matches cond (.float q) p.2
      pure (if m then acc ++ [p.1] else acc))
    (fun (acc : List ℕ) p =>
      if (match p.2 with | ValueEnum.Float x => g x | _ => false) then
        acc ++ [p.1]
      else acc)
    ((TinyFrame.iter_values (.Float v)).enum)
    (by
      intro a ha s
      obtain ⟨x, hx⟩ := hshape a ha
      simp only []
      rw [hx, h x]
      rfl)
    []
  unfold TinyFrame.filter_indices
  rw [h1]
  congr 1
  rw [show (TinyFrame.iter_values (.Float v)).enum
      = List.enumFrom 0 (v.map ValueEnum.Float) from rfl]
  rw [foldl_append_indices
    (fun val => match val with | ValueEnum.Float x => g x | _ => false)
    (ValueEnum.Float 0)]
  simp only [List.nil_append, List.length_map]
  have hfc : (List.range v.length).filter
      (fun i =>
        (match (v.map ValueEnum.Float).getD i (ValueEnum.Float 0) with
          | ValueEnum.Float x => g x
          | _ => false))
      = (List.range v.length).filter (fun i => g (v.getD i 0)) := by
    apply List.filter_congr
    intro i hi
    have hi' := List.mem_range.mp hi
    rw [List.getD_eq_getElem?_getD, List.getElem?_map,
      List.getElem?_eq_getElem hi', List.getD_eq_getElem?_getD,
      List.getElem?_eq_getElem hi']
    rfl
  rw [hfc]
  simp

/-- Row selection of `ParallelOps::parallel_filter` over a plain `Float`
column, given the per-value evaluation as a boolean predicate: the
mask keeps the in-range indices satisfying it. -/
theorem filter_mask_float (cond : String) (q : ℚ) (g : ℚ → Bool)
    (h : ∀ x : ℚ, ParallelOps.fc_evaluate cond (.Float q) (.Float x) = g x)
    (v : List ℚ) :
    mask_true_indices
        (ParallelOps.filter_mask (.Float v) v.length cond (.Float q))
      = (List.range v.length).filter (fun i => g (v.getD i 0)) := by
  have hmask : ParallelOps.filter_mask (.Float v) v.length cond (.Float q)
      = (List.range v.length).map (fun i => g (v.getD i 0)) := by
    unfold ParallelOps.filter_mask
    apply List.map_congr_left
    intro i hi
    have hi' := List.mem_range.mp hi
    simp only [ParallelOps.get_value_at_index, JoinOps.get_value_at_index]
    rw [List.get?_eq_getElem?, List.getElem?_eq_getElem hi']
    simp only [Option.map_some']
    rw [h, List.getD_eq_getElem?_getD, List.getElem?_eq_getElem hi']
    rfl
  rw [hmask, mask_true_indices_map_range]

/-- On a float cell and a float literal, `FilterCondition::evaluate`
agrees with the numeric predicate of each of the six conditions. -/
theorem fc_evaluate_float_eq_cond (q x : ℚ) :
    (ParallelOps.fc_evaluate "==" (.Float q) (.Float x) = (x == q)) ∧
      (ParallelOps.fc_evaluate "!=" (.Float q) (.Float x) = (x != q)) ∧
      (ParallelOps.fc_evaluate ">" (.Float q) (.Float x) = decide (x > q)) ∧
      (ParallelOps.fc_evaluate "<" (.Float q) (.Float x) = decide (x < q)) ∧
      (ParallelOps.fc_evaluate ">=" (.Float q) (.Float x) = decide (x ≥ q)) ∧
      (ParallelOps.fc_evaluate "<=" (.Float q) (.Float x) = decide (x ≤ q)) := by
  unfold ParallelOps.fc_evaluate ParallelOps.fc_compare_values
  rcases lt_trichotomy x q with hlt | heq | hgt
  · have e1 : (x == q) = false := by simp [ne_of_lt hlt]
    have e2 : (x != q) = true := by simp [bne_iff_ne, ne_of_lt hlt]
    have e3 : decide (x > q) = false := by simp [lt_asymm hlt]
    have e4 : decide (x < q) = true := by simp [hlt]
    have e5 : decide (x ≥ q) = false := by simp [not_le.mpr hlt]
    have e6 : decide (x ≤ q) = true := by simp [le_of_lt hlt]
    simp only [if_pos hlt, e1, e2, e3, e4, e5, e6]
    exact ⟨rfl, rfl, rfl, rfl, rfl, rfl⟩
  · subst heq
    have e1 : (x == x) = true := by simp
    have e2 : (x != x) = false := by simp
    have e3 : decide (x > x) = false := by simp
    have e4 : decide (x < x) = false := by simp
    have e5 : decide (x ≥ x) = true := by simp
    have e6 : decide (x ≤ x) = true := by simp
    simp only [if_neg (lt_irrefl x), e1, e2, e3, e4, e5, e6]
    exact ⟨rfl, rfl, rfl, rfl, rfl, rfl⟩
  · have e1 : (x == q) = false := by simp [ne_of_gt hgt]
    have e2 : (x != q) = true := by simp [bne_iff_ne, ne_of_gt hgt]
    have e3 : decide (x > q) = true := by simp [hgt]
    have e4 : decide (x < q) = false := by simp [lt_asymm hgt]
    have e5 : decide (x ≥ q) = true := by simp [le_of_lt hgt]
    have e6 : decide (x ≤ q) = false := by simp [not_le.mpr hgt]
    simp only [if_neg (lt_asymm hgt), if_pos hgt, e1, e2, e3, e4, e5, e6]
    exact ⟨rfl, rfl, rfl, rfl, rfl, rfl⟩

/-- C1, amended.  For a non-nullable `Float` column and a float literal,
each of the six comparison conditions selects exactly the same set of
row indices in the sequential `filter` (which succeeds) and in
`parallel_filter`'s keep-mask; in particular the two execution paths
return set-equal rows there.  (The claim as stated fails outside this
numeric fragment: see the counterexample, the first-null iterator
truncation, the string/`in`/`not_in` handling and the bool/cross-kind
`Equal` convention.) -/
theorem parallel_seq_filter_float_equiv (v : List ℚ) (cond : String) (q : ℚ)
    (hcond : cond = "==" ∨ cond = "!=" ∨ cond = ">" ∨ cond = "<" ∨
      cond = ">=" ∨ cond = "<=") :
    ∃ idxs : List ℕ,
      TinyFrame.filter_indices (.Float v) cond (.float q) = .ok idxs ∧
        mask_true_indices
          (ParallelOps.filter_mask (.Float v) v.length cond (.Float q))
          = idxs ∧
        ParallelOps.convert_py_value (.float q) = .ok (.Float q) := by
  rcases hcond with h | h | h | h | h | h <;> subst h
  · exact ⟨_, filter_indices_float "==" q (fun x => x == q) (fun x => rfl) v,
      filter_mask_float "==" q _
        (fun x => (fc_evaluate_float_eq_cond q x).1) v, rfl⟩
  · exact ⟨_, filter_indices_float "!=" q (fun x => x != q) (fun x => rfl) v,
      filter_mask_float "!=" q _
        (fun x => (fc_evaluate_float_eq_cond q x).2.1) v, rfl⟩
  · exact ⟨_, filter_indices_float ">" q (fun x => decide (x > q))
        (fun x => rfl) v,
      filter_mask_float ">" q _
        (fun x => (fc_evaluate_float_eq_cond q x).2.2.1) v, rfl⟩
  · exact ⟨_, filter_indices_float "<" q (fun x => decide (x < q))
        (fun x => rfl) v,
      filter_mask_float "<" q _
        (fun x => (fc_evaluate_float_eq_cond q x).2.2.2.1) v, rfl⟩
  · exact ⟨_, filter_indices_float ">=" q (fun x => decide (x ≥ q))
        (fun x => rfl) v,
      filter_mask_float ">=" q _
        (fun x => (fc_evaluate_float_eq_cond q x).2.2.2.2.1) v, rfl⟩
  · exact ⟨_, filter_indices_float "<=" q (fun x => decide (x ≤ q))
        (fun x => rfl) v,
      filter_mask_float "<=" q _
        (fun x => (fc_evaluate_float_eq_cond q x).2.2.2.2.2) v, rfl⟩

/-- C1, witness: the amended equivalence applied to the column
`[1, 3, 2]` with condition `> 1`, where both paths keep rows 1 and 2. -/
theorem parallel_seq_filter_float_equiv_witness :
    TinyFrame.filter_indices (.Float [1, 3, 2]) ">" (.float 1)
      = .ok [1, 2] ∧
      mask_true_indices
        (ParallelOps.filter_mask (.Float [1, 3, 2]) 3 ">" (.Float 1))
        = [1, 2] := by
  obtain ⟨idxs, h1, h2, -⟩ := parallel_seq_filter_float_equiv [1, 3, 2] ">" 1
    (Or.inr (Or.inr (Or.inl rfl)))
  have hval : idxs = [1, 2] := by
    have h' : (Except.ok idxs : Except String (List ℕ)) = .ok [1, 2] :=
      h1.symm.trans (by decide)
    simpa using h'
  subst hval
  exact ⟨h1, h2⟩

/-- C1, counterexample.  On the one-row frame with string column
`s = ["b"]` and the call `filter(s, ">", "a")`, the sequential filter
returns the empty frame (string cells compare `false` under `>`), while
the parallel filter keeps the row (its condition object compares
strings lexicographically): the two results are not set-equal as sets
of rows, although `filter`'s contract fixes the selected row set. -/
theorem parallel_seq_filter_counterexample :
    TinyFrame.filter ⟨[("s", .Str ["b"])], 1, []⟩ "s" ">" (.str "a")
      = .ok ⟨[("s", .Str [])], 0, []⟩ ∧
      ParallelOps.parallel_filter ⟨[("s", .Str ["b"])], 1, []⟩ "s" ">"
          (.str "a")
        = .ok ⟨[("s", .Str ["b"])], 1, []⟩ :=
  ⟨by decide, by decide⟩

theorem compare_for_sort_self (a : Option ℚ) :
    TinyFrame.compare_for_sort a a = .eq := by
  cases a with
  | none => rfl
  | some x => simp [TinyFrame.compare_for_sort]

theorem compare_for_sort_swap (a b : Option ℚ) :
    TinyFrame.compare_for_sort b a
      = (TinyFrame.compare_for_sort a b).swap := by
  cases a <;> cases b <;>
    simp only [TinyFrame.compare_for_sort, Ordering.swap]
  rename_i x y
  rcases lt_trichotomy x y with h | h | h
  · simp [h, lt_asymm h, Ordering.swap]
  · simp [h, Ordering.swap]
  · simp [h, lt_asymm h, Ordering.swap]

theorem compare_for_sort_eq_iff (a b : Option ℚ) :
    TinyFrame.compare_for_sort a b = .eq ↔ a = b := by
  cases a <;> cases b <;>
    simp only [TinyFrame.compare_for_sort, Option.some.injEq] <;>
    try simp
  rename_i x y
  rcases lt_trichotomy x y with h | h | h
  · simp [h, ne_of_lt h]
  · simp [h, lt_irrefl]
  · simp [h, lt_asymm h, ne_of_gt h]

theorem compare_for_sort_lt_iff (a b : Option ℚ) :
    TinyFrame.compare_for_sort a b = .lt ↔ null_last_lt a b := by
  cases a <;> cases b <;>
    simp only [TinyFrame.compare_for_sort, null_last_lt] <;>
    simp

theorem compare_for_sort_trans (a b c : Option ℚ)
    (h1 : TinyFrame.compare_for_sort a b = .lt)
    (h2 : TinyFrame.compare_for_sort b c = .lt) :
    TinyFrame.compare_for_sort a c = .lt := by
  rw [compare_for_sort_lt_iff] at h1 h2 ⊢
  cases a <;> cases b <;> cases c <;>
    simp only [null_last_lt] at h1 h2 ⊢ <;> try trivial
  exact lt_trans h1 h2


theorem keys_cmp_self (a : List (Option ℚ)) : keys_cmp a a = .eq := by
  induction a with
  | nil => rfl
  | cons x xs ih => simp [keys_cmp, compare_for_sort_self, ih]

theorem keys_cmp_swap : ∀ (a b : List (Option ℚ)),
    keys_cmp b a = (keys_cmp a b).swap := by
  intro a
  induction a with
  | nil => intro b; cases b <;> rfl
  | cons x xs ih =>
    intro b
    cases b with
    | nil => rfl
    | cons y ys =>
      simp only [keys_cmp, compare_for_sort_swap x y]
      rcases hxy : TinyFrame.compare_for_sort x y with _ | _ | _ <;>
        simp [Ordering.swap, ih ys]

theorem keys_cmp_le_trans : ∀ (a b c : List (Option ℚ)),
    a.length = b.length → b.length = c.length →
    keys_cmp a b ≠ .gt → keys_cmp b c ≠ .gt → keys_cmp a c ≠ .gt := by
  intro a
  induction a with
  | nil => intro b c _ _ _ _; simp [keys_cmp]
  | cons x xs ih =>
    intro b c hab hbc h1 h2
    cases b with
    | nil => simp at hab
    | cons y ys =>
      cases c with
      | nil => simp at hbc
      | cons z zs =>
        simp only [keys_cmp] at h1 h2 ⊢
        rcases hxy : TinyFrame.compare_for_sort x y with _ | _ | _ <;>
          rw [hxy] at h1 <;>
          rcases hyz : TinyFrame.compare_for_sort y z with _ | _ | _ <;>
          rw [hyz] at h2
        · rw [show TinyFrame.compare_for_sort x z = .lt from
            compare_for_sort_trans x y z hxy hyz]
          simp
        · rw [(compare_for_sort_eq_iff y z).mp hyz] at hxy
          rw [hxy]
          simp
        · simp at h2
        · rw [(compare_for_sort_eq_iff x y).mp hxy, hyz]
          simp
        · rw [(compare_for_sort_eq_iff x y).mp hxy, hyz]
          simp only [ne_eq, not_true_eq_false, if_false, reduceIte]
          simp at h1 h2
          exact ih ys zs (by simpa using hab) (by simpa using hbc) h1 h2
        · simp at h2
        · simp at h1
        · simp at h1
        · simp at h1


theorem keys_lex_le_iff_cmp : ∀ (a b : List (Option ℚ)),
    keys_lex_le a b ↔ keys_cmp a b ≠ .gt := by
  intro a
  induction a with
  | nil => intro b; simp [keys_lex_le, keys_cmp]
  | cons x xs ih =>
    intro b
    cases b with
    | nil => simp [keys_lex_le, keys_cmp]
    | cons y ys =>
      simp only [keys_lex_le, keys_cmp]
      rcases hxy : TinyFrame.compare_for_sort x y with _ | _ | _
      · have hlt : null_last_lt x y := (compare_for_sort_lt_iff x y).mp hxy
        simp [hlt]
      · have heq : x = y := (compare_for_sort_eq_iff x y).mp hxy
        subst heq
        have hnlt : ¬ null_last_lt x x := by
          rw [← compare_for_sort_lt_iff, hxy]
          simp
        simp [hnlt, ih ys]
      · have hne : ¬ x = y := by
          rw [← compare_for_sort_eq_iff, hxy]
          simp
        have hnlt : ¬ null_last_lt x y := by
          rw [← compare_for_sort_lt_iff, hxy]
          simp
        simp [hne, hnlt]

theorem sort_cmp_eq_keys (f : TinyFrame) (by_cols : List String)
    (hcols : ∀ c ∈ by_cols, (List.lookup c f.columns).isSome) (a b : ℕ) :
    TinyFrame.sort_cmp f true by_cols a b
      = keys_cmp (sort_key_vec f by_cols a) (sort_key_vec f by_cols b) := by
  induction by_cols with
  | nil => rfl
  | cons c cs ih =>
    obtain ⟨col, hcol⟩ :=
      Option.isSome_iff_exists.mp (hcols c (by simp))
    simp only [TinyFrame.sort_cmp, sort_key_vec, List.map_cons, keys_cmp,
      hcol, Option.some_bind]
    rcases hcmp : TinyFrame.compare_for_sort
        (TinyFrame.get_value_at_index col a)
        (TinyFrame.get_value_at_index col b) with _ | _ | _ <;>
      simp [hcmp, sort_key_vec,
        ih (fun c hc => hcols c (by simp [hc]))]

theorem pair_sublist_range {a b n : ℕ} (hab : a < b) (hb : b < n) :
    [a, b].Sublist (List.range n) := by
  induction n with
  | zero => omega
  | succ n ih =>
    rw [List.range_succ]
    rcases Nat.lt_or_ge b n with h | h
    · exact (ih h).trans (List.sublist_append_left _ _)
    · have hbn : b = n := by omega
      subst hbn
      exact List.Sublist.append
        (List.singleton_sublist.mpr (List.mem_range.mpr hab))
        (List.Sublist.refl [b])

theorem sublist_pair_pos {α : Type} {a b : α} {l : List α}
    (h : [a, b].Sublist l) :
    ∃ i j : Fin l.length, i < j ∧ l.get i = a ∧ l.get j = b := by
  obtain ⟨is, his, hpw⟩ := List.sublist_eq_map_get h
  match is, his, hpw with
  | [i, j], his, hpw =>
    simp only [List.map_cons, List.map_nil, List.cons.injEq] at his
    obtain ⟨h1, h2, -⟩ := his
    exact ⟨i, j, by
      have := List.pairwise_iff_get.mp hpw ⟨0, by simp⟩ ⟨1, by simp⟩
        (by simp)
      simpa using this, h1.symm, h2.symm⟩


/-- C4, amended.  For the default ascending order and sort-key columns
that all exist, sort_values applies a stable permutation of the row
indices: the index list is a permutation of the row range, it is sorted
by the lexicographic multi-key order in which int/float keys compare
numerically and all other values (nulls, and every string/bool/mixed/
object cell, which the numeric key extraction maps to null) order after
all present numeric values with ties falling through to the next key,
and rows whose whole key vectors are equal keep their original relative
order.  (The claim as stated is wrong about string and boolean keys:
they are not compared per their native ordering, see the
counterexample.) -/
theorem sort_values_numeric_stable (f : TinyFrame) (by_cols : List String)
    (hcols : ∀ c ∈ by_cols, (List.lookup c f.columns).isSome) :
    (f.length ≠ 0 →
      TinyFrame.sort_values f by_cols (some true)
        = .ok (TinyFrame.filter_by_indices f
            (TinyFrame.sort_indices f by_cols true))) ∧
      (TinyFrame.sort_indices f by_cols true).Perm (List.range f.length) ∧
      (∀ p q : Fin (TinyFrame.sort_indices f by_cols true).length, p < q →
        keys_lex_le
          (sort_key_vec f by_cols
            ((TinyFrame.sort_indices f by_cols true).get p))
          (sort_key_vec f by_cols
            ((TinyFrame.sort_indices f by_cols true).get q))) ∧
      (∀ p q : Fin (TinyFrame.sort_indices f by_cols true).length, p < q →
        sort_key_vec f by_cols
            ((TinyFrame.sort_indices f by_cols true).get p)
          = sort_key_vec f by_cols
              ((TinyFrame.sort_indices f by_cols true).get q) →
        (TinyFrame.sort_indices f by_cols true).get p
          < (TinyFrame.sort_indices f by_cols true).get q) := by
  have htrans : ∀ a b c : ℕ,
      TinyFrame.sort_cmp f true by_cols a b ≠ Ordering.gt →
      TinyFrame.sort_cmp f true by_cols b c ≠ Ordering.gt →
      TinyFrame.sort_cmp f true by_cols a c ≠ Ordering.gt := by
    intro a b c h1 h2
    rw [sort_cmp_eq_keys f by_cols hcols] at h1 h2 ⊢
    exact keys_cmp_le_trans _ _ _ (by simp [sort_key_vec])
      (by simp [sort_key_vec]) h1 h2
  have htransB : ∀ a b c : ℕ,
      decide (TinyFrame.sort_cmp f true by_cols a b ≠ Ordering.gt) = true →
      decide (TinyFrame.sort_cmp f true by_cols b c ≠ Ordering.gt) = true →
      decide (TinyFrame.sort_cmp f true by_cols a c ≠ Ordering.gt) = true :=
    fun a b c h1 h2 => decide_eq_true
      (htrans a b c (of_decide_eq_true h1) (of_decide_eq_true h2))
  have htotalB : ∀ a b : ℕ,
      (decide (TinyFrame.sort_cmp f true by_cols a b ≠ Ordering.gt) ||
        decide (TinyFrame.sort_cmp f true by_cols b a ≠ Ordering.gt))
        = true := by
    intro a b
    by_cases h : TinyFrame.sort_cmp f true by_cols a b = Ordering.gt
    · have h' : TinyFrame.sort_cmp f true by_cols b a ≠ Ordering.gt := by
        rw [sort_cmp_eq_keys f by_cols hcols] at h ⊢
        rw [keys_cmp_swap, h]
        simp [Ordering.swap]
      simp [h']
    · simp [h]
  have hperm : (TinyFrame.sort_indices f by_cols true).Perm
      (List.range f.length) := List.mergeSort_perm _ _
  have hnodup : (TinyFrame.sort_indices f by_cols true).Nodup :=
    hperm.symm.nodup (List.nodup_range f.length)
  have hsorted := List.sorted_mergeSort htransB htotalB
    (List.range f.length)
  refine ⟨?_, hperm, ?_, ?_⟩
  · intro hn
    unfold TinyFrame.sort_values
    rw [if_neg hn]
    have hall : by_cols.all
        (fun c => (List.lookup c f.columns).isSome) = true := by
      rw [List.all_eq_true]
      intro c hc
      exact hcols c hc
    rw [if_pos hall]
    rfl
  · intro p q hpq
    have := List.pairwise_iff_get.mp hsorted p q hpq
    have h' := of_decide_eq_true this
    rw [sort_cmp_eq_keys f by_cols hcols] at h'
    exact (keys_lex_le_iff_cmp _ _).mpr h'
  · intro p q hpq hkeys
    by_contra hcon
    have hne : (TinyFrame.sort_indices f by_cols true).get p
        ≠ (TinyFrame.sort_indices f by_cols true).get q := fun heq =>
      Fin.ne_of_lt hpq (List.nodup_iff_injective_get.mp hnodup heq)
    have hlt : (TinyFrame.sort_indices f by_cols true).get q
        < (TinyFrame.sort_indices f by_cols true).get p := by
      omega
    have hbmem : (TinyFrame.sort_indices f by_cols true).get p
        < f.length := by
      have : (TinyFrame.sort_indices f by_cols true).get p
          ∈ List.range f.length :=
        hperm.subset (List.get_mem _ p.1 p.2)
      exact List.mem_range.mp this
    have hsub : [(TinyFrame.sort_indices f by_cols true).get q,
        (TinyFrame.sort_indices f by_cols true).get p].Sublist
        (List.range f.length) := pair_sublist_range hlt hbmem
    have hpw : List.Pairwise
        (fun a b =>
          decide (TinyFrame.sort_cmp f true by_cols a b ≠ Ordering.gt)
            = true)
        [(TinyFrame.sort_indices f by_cols true).get q,
          (TinyFrame.sort_indices f by_cols true).get p] := by
      simp only [List.pairwise_cons, List.mem_singleton,
        List.pairwise_singleton, and_true]
      refine ⟨?_, by simp, by simp⟩
      intro a' ha'
      subst ha'
      apply decide_eq_true
      rw [sort_cmp_eq_keys f by_cols hcols, ← hkeys, keys_cmp_self]
      simp
    have hsubr := List.sublist_mergeSort htransB htotalB hpw hsub
    obtain ⟨i, j, hij, hi, hj⟩ := sublist_pair_pos hsubr
    have hiq : i = q := List.nodup_iff_injective_get.mp hnodup hi
    have hjp : j = p := List.nodup_iff_injective_get.mp hnodup hj
    rw [hiq, hjp] at hij
    exact absurd hij (not_lt.mpr (le_of_lt hpq))


/-- C4, witness: the amended theorem applied to a three-row nullable-int
column, whose sort succeeds and permutes the row range. -/
theorem sort_values_numeric_stable_witness :
    TinyFrame.sort_values ⟨[("n", .OptInt [some 2, none, some 1])], 3, []⟩
        ["n"] (some true)
      = .ok (TinyFrame.filter_by_indices
          ⟨[("n", .OptInt [some 2, none, some 1])], 3, []⟩
          (TinyFrame.sort_indices
            ⟨[("n", .OptInt [some 2, none, some 1])], 3, []⟩ ["n"] true)) ∧
      (TinyFrame.sort_indices
          ⟨[("n", .OptInt [some 2, none, some 1])], 3, []⟩ ["n"] true).Perm
        (List.range 3) := by
  have h := sort_values_numeric_stable
    ⟨[("n", .OptInt [some 2, none, some 1])], 3, []⟩ ["n"] (by decide)
  exact ⟨h.1 (by decide), h.2.1⟩

/-- C4, counterexample.  Sorting the string column s = ["b", "a"]
ascending leaves the rows unchanged (string cells have no numeric sort
key, so every comparison is Equal and stability preserves the input
order), whereas the claimed lexical string ordering would produce
["a", "b"]. -/
theorem sort_values_string_counterexample :
    TinyFrame.sort_values ⟨[("s", .Str ["b", "a"])], 2, []⟩ ["s"] (some true)
      = .ok ⟨[("s", .Str ["b", "a"])], 2, []⟩ ∧
      (TinyFrame.mk [("s", .Str ["b", "a"])] 2 []
        ≠ TinyFrame.mk [("s", .Str ["a", "b"])] 2 []) := by
  constructor
  · have hsorted : TinyFrame.sort_indices
        ⟨[("s", .Str ["b", "a"])], 2, []⟩ ["s"] true = [0, 1] := by
      apply List.mergeSort_of_sorted
      decide
    simp only [TinyFrame.sort_values, Option.getD_some, hsorted]
    decide
  · decide

/-- C9, evaluation at the failing input.  The float hash does give NaN
its fixed canonical code, but the key map identifies entries with the
derived `PartialEq`, under which NaN compares unequal to itself: the two
rows whose key tuples both hold the float NaN end up in two distinct map
entries rather than one. -/
theorem nan_keys_not_grouped :
    F64.hash_write .nan = some 0x7ff8000000000000 ∧
      build_key_map_f [("k", [F64.nan, F64.nan])] 2 ["k"]
        = [([ValueEnumF.Float .nan], [0]), ([ValueEnumF.Float .nan], [1])] := by
  refine ⟨by decide, by decide⟩

end Feathertail
namespace Feathertail

theorem lookup_append_left {β : Type} (c : String)
    (l1 l2 : List (String × β)) (h : List.lookup c l1 = none) :
    List.lookup c (l1 ++ l2) = List.lookup c l2 := by
  induction l1 with
  | nil => simp
  | cons p l1 ih =>
    rw [List.cons_append]
    cases p with
    | mk a b =>
      rw [List.lookup_cons] at h ⊢
      cases hac : (c == a) with
      | true => simp [hac] at h
      | false =>
        simp only [hac] at h ⊢
        exact ih h

theorem foldl_assocInsert_nodup {β : Type} (g : String → β) :
    ∀ (names : List String), names.Nodup →
      ∀ acc : List (String × β), (∀ c ∈ names, List.lookup c acc = none) →
      names.foldl (fun acc c => assocInsert acc c (g c)) acc
        = acc ++ names.map (fun c => (c, g c)) := by
  intro names
  induction names with
  | nil => intro _ acc _; simp
  | cons c cs ih =>
    intro hnd acc hacc
    rw [List.foldl_cons]
    have hlc : List.lookup c acc = none := hacc c (by simp)
    have hins : assocInsert acc c (g c) = acc ++ [(c, g c)] := by
      unfold assocInsert
      rw [hlc]
      rfl
    rw [hins, ih (by simp at hnd; exact hnd.2) (acc ++ [(c, g c)]) ?hrest]
    · rw [List.append_assoc]
      rfl
    case hrest =>
      intro c' hc'
      have hne : c' ≠ c := by
        intro heq
        subst heq
        simp at hnd
        exact hnd.1 hc'
      rw [lookup_append_left c' acc [(c, g c)] (hacc c' (by simp [hc']))]
      have hbe : (c' == c) = false := by simp [hne]
      simp [List.lookup_cons, hbe]

theorem lookup_map_pair {β : Type} (g : String → β) :
    ∀ (names : List String) (c : String),
      List.lookup c (names.map (fun n => (n, g n)))
        = if c ∈ names then some (g c) else none := by
  intro names
  induction names with
  | nil => intro c; simp
  | cons n ns ih =>
    intro c
    rw [List.map_cons, List.lookup_cons]
    by_cases hc : c = n
    · subst hc
      simp
    · have : (c == n) = false := by simp [hc]
      rw [this]
      simp only [List.mem_cons]
      rw [ih c]
      by_cases hm : c ∈ ns <;> simp [hm, hc]

theorem lookup_map_snd {β γ : Type} (h : β → γ) :
    ∀ (l : List (String × β)) (c : String),
      List.lookup c (l.map (fun p => (p.1, h p.2)))
        = (List.lookup c l).map h := by
  intro l
  induction l with
  | nil => intro c; simp
  | cons p l ih =>
    intro c
    rw [List.map_cons, List.lookup_cons, List.lookup_cons]
    cases hc : (c == p.1) with
    | true => rfl
    | false => exact ih c

end Feathertail
namespace Feathertail

theorem dedup_const {α : Type} [DecidableEq α] (k : α) :
    ∀ l : List α, l ≠ [] → (∀ a ∈ l, a = k) → l.dedup = [k] := by
  intro l
  induction l with
  | nil => intro h; exact absurd rfl h
  | cons a l ih =>
    intro _ h
    cases l with
    | nil =>
      rw [h a (by simp)]
      rw [List.dedup_cons_of_not_mem (by simp)]
      rfl
    | cons b l' =>
      have hmem : a ∈ b :: l' := by
        rw [h a (by simp), h b (by simp)]
        simp
      rw [List.dedup_cons_of_mem hmem]
      exact ih (by simp) (fun x hx => h x (by simp [hx]))

theorem has_none_of_get (vals : List (Option ValueEnum)) (j : ℕ)
    (hj : vals.get? j = some none) : Convert.has_none vals = true := by
  unfold Convert.has_none
  rw [List.any_eq_true]
  exact ⟨none, List.get?_mem hj, rfl⟩

theorem resolve_column_null_at (vals : List (Option ValueEnum)) (j : ℕ)
    (hj : vals.get? j = some none) :
    isOptionalCol (Convert.resolve_column vals) = true ∧
      JoinOps.get_value_at_index (Convert.resolve_column vals) j = none := by
  have hnone := has_none_of_get vals j hj
  have hjj : vals[j]? = some none := by rw [← List.get?_eq_getElem?]; exact hj
  unfold Convert.resolve_column
  rw [if_neg (by simp [hnone])]
  by_cases h1 : (Convert.types_present vals).length = 1
  · rw [if_pos ⟨h1, hnone⟩]
    rcases (Convert.types_present vals).headD .kInt with _ | _ | _ | _ | _ <;>
      refine ⟨rfl, ?_⟩ <;>
      simp [JoinOps.get_value_at_index, List.getElem?_map, hjj]
  · rw [if_neg (fun hc => h1 hc.1), if_pos hnone]
    refine ⟨rfl, ?_⟩
    simp [JoinOps.get_value_at_index, hjj]

end Feathertail
namespace Feathertail

/-- Claim C10: from_dicts determines the column set solely from the keys of the
first record — for any non-empty record list whose first record has distinct
keys, the output columns are exactly the first record's keys in order, a key
absent from the first record yields no column at all, and for a first-record
column name, any record lacking that key contributes a null in that row, the
column being one of the nullable (optional) variants. -/
theorem from_dicts_first_record_schema (records : List (List (String × PyVal)))
    (hne : records ≠ [])
    (hnd : ((records.headD []).map (·.1)).Nodup) :
    ∃ F, Convert.from_dicts records = .ok F ∧
      F.columns.map (·.1) = (records.headD []).map (·.1) ∧
      (∀ c, c ∉ (records.headD []).map (·.1) →
        List.lookup c F.columns = none) ∧
      (∀ c ∈ (records.headD []).map (·.1), ∀ j, j < records.length →
        List.lookup c (records.getD j []) = none →
        ∃ col, List.lookup c F.columns = some col ∧
          isOptionalCol col = true ∧
          JoinOps.get_value_at_index col j = none) := by
  have hfold := foldl_assocInsert_nodup
    (fun c => Convert.resolve_column (Convert.col_enum_vals records c))
    ((records.headD []).map (·.1)) hnd [] (fun c _ => rfl)
  rw [List.nil_append] at hfold
  refine ⟨⟨((records.headD []).map (·.1)).map
      (fun c => (c, Convert.resolve_column (Convert.col_enum_vals records c))),
      records.length,
      Convert.py_objects_of records ((records.headD []).map (·.1))⟩,
    ?_, ?_, ?_, ?_⟩
  · simp only [Convert.from_dicts]
    rw [if_neg hne, hfold]
  · simp
  · intro c hc
    rw [lookup_map_pair]
    rw [if_neg hc]
  · intro c hc j hj hlook
    refine ⟨Convert.resolve_column (Convert.col_enum_vals records c),
      ?_, ?_⟩
    · rw [lookup_map_pair]
      rw [if_pos hc]
    · apply resolve_column_null_at
      unfold Convert.col_enum_vals
      rw [List.get?_eq_getElem?, List.getElem?_map,
        List.getElem?_eq_getElem hj]
      rw [List.getD_eq_getElem records [] hj] at hlook
      simp [hlook, Convert.classify_val]

end Feathertail
namespace Feathertail

theorem types_present_singleton (vals : List (Option ValueEnum))
    (x : ValueEnum) (hx : some x ∈ vals)
    (hu : ∀ y : ValueEnum, some y ∈ vals →
      Convert.kind_of y = Convert.kind_of x) :
    Convert.types_present vals = [Convert.kind_of x] := by
  unfold Convert.types_present
  apply dedup_const
  · intro hemp
    have : Convert.kind_of x ∈
        vals.filterMap (fun o => o.map Convert.kind_of) := by
      rw [List.mem_filterMap]
      exact ⟨some x, hx, rfl⟩
    rw [hemp] at this
    simp at this
  · intro a ha
    rw [List.mem_filterMap] at ha
    obtain ⟨o, ho, hoa⟩ := ha
    cases o with
    | none => simp at hoa
    | some y =>
      simp only [Option.map_some', Option.some.injEq] at hoa
      rw [← hoa]
      exact hu y ho

theorem render_resolve_at (vals : List (Option ValueEnum))
    (po : List (ℕ × PyVal)) (j : ℕ) (w : PyVal)
    (hj : vals.get? j = some (Convert.classify_val (some w)))
    (hu : ∀ x y : ValueEnum, some x ∈ vals → some y ∈ vals →
      Convert.kind_of x = Convert.kind_of y)
    (hobj : ∀ oid : ℕ, w = PyVal.obj oid →
      List.lookup oid po = some (PyVal.obj oid)) :
    Convert.render_value po (Convert.resolve_column vals) j = w := by
  have hjj : vals[j]? = some (Convert.classify_val (some w)) := by
    rw [← List.get?_eq_getElem?]
    exact hj
  cases w with
  | none =>
    have hnone := has_none_of_get vals j hj
    unfold Convert.resolve_column
    rw [if_neg (by simp [hnone])]
    by_cases h1 : (Convert.types_present vals).length = 1
    · rw [if_pos ⟨h1, hnone⟩]
      rcases (Convert.types_present vals).headD .kInt with _ | _ | _ | _ | _ <;>
        simp [Convert.render_value, List.getD_eq_getElem?_getD,
          List.getElem?_map, hjj, Convert.classify_val]
    · rw [if_neg (fun hc => h1 hc.1), if_pos hnone]
      simp [Convert.render_value, List.getD_eq_getElem?_getD, hjj,
        Convert.classify_val]
  | int m =>
    have hx : some (ValueEnum.Int m) ∈ vals := List.get?_mem hj
    have htp := types_present_singleton vals (.Int m) hx
      (fun y hy => hu y (.Int m) hy hx)
    unfold Convert.resolve_column
    rw [htp]
    by_cases hn : Convert.has_none vals = true
    · rw [if_neg (by simp [hn]), if_pos ⟨by simp, hn⟩]
      simp [Convert.render_value, List.getD_eq_getElem?_getD,
        List.getElem?_map, hjj, Convert.classify_val, Convert.kind_of]
    · rw [if_pos ⟨by simp, by simp [hn]⟩]
      simp [Convert.render_value, List.getD_eq_getElem?_getD,
        List.getElem?_map, hjj, Convert.classify_val, Convert.kind_of]
  | float m =>
    have hx : some (ValueEnum.Float m) ∈ vals := List.get?_mem hj
    have htp := types_present_singleton vals (.Float m) hx
      (fun y hy => hu y (.Float m) hy hx)
    unfold Convert.resolve_column
    rw [htp]
    by_cases hn : Convert.has_none vals = true
    · rw [if_neg (by simp [hn]), if_pos ⟨by simp, hn⟩]
      simp [Convert.render_value, List.getD_eq_getElem?_getD,
        List.getElem?_map, hjj, Convert.classify_val, Convert.kind_of]
    · rw [if_pos ⟨by simp, by simp [hn]⟩]
      simp [Convert.render_value, List.getD_eq_getElem?_getD,
        List.getElem?_map, hjj, Convert.classify_val, Convert.kind_of]
  | str m =>
    have hx : some (ValueEnum.Str m) ∈ vals := List.get?_mem hj
    have htp := types_present_singleton vals (.Str m) hx
      (fun y hy => hu y (.Str m) hy hx)
    unfold Convert.resolve_column
    rw [htp]
    by_cases hn : Convert.has_none vals = true
    · rw [if_neg (by simp [hn]), if_pos ⟨by simp, hn⟩]
      simp [Convert.render_value, List.getD_eq_getElem?_getD,
        List.getElem?_map, hjj, Convert.classify_val, Convert.kind_of]
    · rw [if_pos ⟨by simp, by simp [hn]⟩]
      simp [Convert.render_value, List.getD_eq_getElem?_getD,
        List.getElem?_map, hjj, Convert.classify_val, Convert.kind_of]
  | bool m =>
    have hx : some (ValueEnum.Bool m) ∈ vals := List.get?_mem hj
    have htp := types_present_singleton vals (.Bool m) hx
      (fun y hy => hu y (.Bool m) hy hx)
    unfold Convert.resolve_column
    rw [htp]
    by_cases hn : Convert.has_none vals = true
    · rw [if_neg (by simp [hn]), if_pos ⟨by simp, hn⟩]
      simp [Convert.render_value, List.getD_eq_getElem?_getD,
        List.getElem?_map, hjj, Convert.classify_val, Convert.kind_of]
    · rw [if_pos ⟨by simp, by simp [hn]⟩]
      simp [Convert.render_value, List.getD_eq_getElem?_getD,
        List.getElem?_map, hjj, Convert.classify_val, Convert.kind_of]
  | obj oid =>
    have hx : some (ValueEnum.PyObjectId oid) ∈ vals := List.get?_mem hj
    have htp := types_present_singleton vals (.PyObjectId oid) hx
      (fun y hy => hu y (.PyObjectId oid) hy hx)
    have hpo := hobj oid rfl
    unfold Convert.resolve_column
    rw [htp]
    by_cases hn : Convert.has_none vals = true
    · rw [if_neg (by simp [hn]), if_pos ⟨by simp, hn⟩]
      simp [Convert.render_value, List.getD_eq_getElem?_getD,
        List.getElem?_map, hjj, Convert.classify_val, Convert.kind_of, hpo]
    · rw [if_pos ⟨by simp, by simp [hn]⟩]
      simp [Convert.render_value, List.getD_eq_getElem?_getD,
        List.getElem?_map, hjj, Convert.classify_val, Convert.kind_of, hpo]

end Feathertail
namespace Feathertail

theorem py_objects_entries (records : List (List (String × PyVal)))
    (col_names : List String) :
    ∀ p ∈ Convert.py_objects_of records col_names,
      p.2 = PyVal.obj p.1 := by
  intro p hp
  unfold Convert.py_objects_of at hp
  rw [List.mem_flatMap] at hp
  obtain ⟨c, -, hp⟩ := hp
  rw [List.mem_filterMap] at hp
  obtain ⟨r, -, hr⟩ := hp
  rcases hl : List.lookup c r with _ | v
  · rw [hl] at hr; simp at hr
  · rw [hl] at hr
    cases v <;> simp at hr <;> simp [← hr]

theorem lookup_obj_table (po : List (ℕ × PyVal))
    (hall : ∀ p ∈ po, p.2 = PyVal.obj p.1) (oid : ℕ)
    (hmem : ∃ v, (oid, v) ∈ po) :
    List.lookup oid po = some (PyVal.obj oid) := by
  induction po with
  | nil => obtain ⟨v, hv⟩ := hmem; simp at hv
  | cons p po ih =>
    obtain ⟨k, v⟩ := p
    rw [List.lookup_cons]
    cases hk : (oid == k) with
    | true =>
      have hkv := hall (k, v) (by simp)
      simp only at hkv
      rw [hkv]
      have : oid = k := by simpa using hk
      rw [this]
    | false =>
      apply ih
      · intro p hp
        exact hall p (by simp [hp])
      · obtain ⟨v', hv'⟩ := hmem
        rcases List.mem_cons.mp hv' with heq | hmem'
        · exfalso
          have : oid = k := by
            have := congrArg Prod.fst heq
            simpa using this
          rw [this] at hk
          simp at hk
        · exact ⟨v', hmem'⟩

theorem obj_mem_py_objects (records : List (List (String × PyVal)))
    (col_names : List String) (c : String) (hc : c ∈ col_names)
    (j : ℕ) (hj : j < records.length) (oid : ℕ)
    (hl : List.lookup c (records.getD j []) = some (PyVal.obj oid)) :
    (oid, PyVal.obj oid) ∈ Convert.py_objects_of records col_names := by
  unfold Convert.py_objects_of
  rw [List.mem_flatMap]
  refine ⟨c, hc, ?_⟩
  rw [List.mem_filterMap]
  refine ⟨records.getD j [], ?_, ?_⟩
  · rw [List.getD_eq_getElem records [] hj]
    exact List.getElem_mem hj
  · rw [hl]

end Feathertail
namespace Feathertail

/-- Claim C6 (amended): for non-empty record lists whose first record has
distinct keys and whose columns carry a uniform scalar kind across records,
to_dicts (from_dicts R) reproduces R's values for every row index and every
column name PRESENT IN THE FIRST RECORD. The restriction to first-record keys
is essential: a key appearing only in a later record produces no column (see
the counterexample), so the round trip does not reproduce all of R's values
as the original claim states. -/
theorem from_dicts_to_dicts_roundtrip (records : List (List (String × PyVal)))
    (hne : records ≠ [])
    (hnd : ((records.headD []).map (·.1)).Nodup)
    (huni : ∀ c : String, ∀ r1 ∈ records, ∀ r2 ∈ records, ∀ v1 v2 : PyVal,
      List.lookup c r1 = some v1 → List.lookup c r2 = some v2 →
      ∀ x y : ValueEnum, Convert.classify_val (some v1) = some x →
        Convert.classify_val (some v2) = some y →
        Convert.kind_of x = Convert.kind_of y) :
    ∃ F, Convert.from_dicts records = .ok F ∧
      (Convert.to_dicts F).length = records.length ∧
      (∀ j, j < records.length → ∀ c, c ∈ (records.headD []).map (·.1) →
        ∀ w, List.lookup c (records.getD j []) = some w →
        List.lookup c ((Convert.to_dicts F).getD j []) = some w) := by
  have hfold := foldl_assocInsert_nodup
    (fun c => Convert.resolve_column (Convert.col_enum_vals records c))
    ((records.headD []).map (·.1)) hnd [] (fun c _ => rfl)
  rw [List.nil_append] at hfold
  refine ⟨⟨((records.headD []).map (·.1)).map
      (fun c => (c, Convert.resolve_column (Convert.col_enum_vals records c))),
      records.length,
      Convert.py_objects_of records ((records.headD []).map (·.1))⟩,
    ?_, by simp [Convert.to_dicts], ?_⟩
  · simp only [Convert.from_dicts]
    rw [if_neg hne, hfold]
  · intro j hj c hc w hw
    have hrow : (Convert.to_dicts
        ⟨((records.headD []).map (·.1)).map
          (fun c => (c, Convert.resolve_column (Convert.col_enum_vals records c))),
          records.length,
          Convert.py_objects_of records ((records.headD []).map (·.1))⟩).getD j []
        = (((records.headD []).map (·.1)).map
            (fun c => (c, Convert.resolve_column (Convert.col_enum_vals records c)))).map
            (fun p => (p.1,
              Convert.render_value
                (Convert.py_objects_of records ((records.headD []).map (·.1)))
                p.2 j)) := by
      unfold Convert.to_dicts
      rw [List.getD_eq_getElem?_getD, List.getElem?_map,
        List.getElem?_range hj]
      rfl
    rw [hrow, List.map_map]
    have hcomp : ((fun p : String × TinyColumn => (p.1,
          Convert.render_value
            (Convert.py_objects_of records ((records.headD []).map (·.1)))
            p.2 j)) ∘
        (fun c => (c, Convert.resolve_column (Convert.col_enum_vals records c))))
        = fun c => (c, Convert.render_value
            (Convert.py_objects_of records ((records.headD []).map (·.1)))
            (Convert.resolve_column (Convert.col_enum_vals records c)) j) := rfl
    rw [hcomp]
    rw [lookup_map_pair
      (fun c => Convert.render_value
        (Convert.py_objects_of records ((records.headD []).map (·.1)))
        (Convert.resolve_column (Convert.col_enum_vals records c)) j)
      ((records.headD []).map (·.1)) c]
    rw [if_pos hc]
    rw [render_resolve_at (Convert.col_enum_vals records c) _ j w ?hjv ?huv ?hov]
    case hjv =>
      unfold Convert.col_enum_vals
      rw [List.get?_eq_getElem?, List.getElem?_map,
        List.getElem?_eq_getElem hj]
      rw [List.getD_eq_getElem records [] hj] at hw
      simp only [Option.map_some', hw]
    case huv =>
      intro x y hx hy
      unfold Convert.col_enum_vals at hx hy
      rw [List.mem_map] at hx hy
      obtain ⟨r1, hr1, hx1⟩ := hx
      obtain ⟨r2, hr2, hy1⟩ := hy
      rcases hl1 : List.lookup c r1 with _ | v1
      · rw [hl1] at hx1; simp [Convert.classify_val] at hx1
      · rcases hl2 : List.lookup c r2 with _ | v2
        · rw [hl2] at hy1; simp [Convert.classify_val] at hy1
        · rw [hl1] at hx1
          rw [hl2] at hy1
          exact huni c r1 hr1 r2 hr2 v1 v2 hl1 hl2 x y hx1 hy1
    case hov =>
      intro oid hwo
      subst hwo
      apply lookup_obj_table
      · exact py_objects_entries records ((records.headD []).map (·.1))
      · exact ⟨PyVal.obj oid,
          obj_mem_py_objects records ((records.headD []).map (·.1)) c hc j hj
            oid hw⟩

end Feathertail
namespace Feathertail

theorem from_dicts_first_record_schema_witness :
    ∃ F, Convert.from_dicts [[("a", PyVal.int 1)], []] = Except.ok F ∧
      F.columns.map (·.1) = ["a"] ∧
      List.lookup "b" F.columns = none ∧
      ∃ col, List.lookup "a" F.columns = some col ∧ isOptionalCol col = true ∧
        JoinOps.get_value_at_index col 1 = none := by
  obtain ⟨F, h1, h2, h3, h4⟩ := from_dicts_first_record_schema
    [[("a", PyVal.int 1)], []] (by simp) (by simp)
  refine ⟨F, h1, by simpa using h2, h3 "b" (by simp), ?_⟩
  exact h4 "a" (by simp) 1 (by simp) (by simp)

theorem from_dicts_to_dicts_roundtrip_witness :
    ∃ F, Convert.from_dicts [[("a", PyVal.int 1)]] = Except.ok F ∧
      (Convert.to_dicts F).length = 1 ∧
      List.lookup "a" ((Convert.to_dicts F).getD 0 []) = some (PyVal.int 1) := by
  have huni : ∀ c : String, ∀ r1 ∈ [[("a", PyVal.int 1)]],
      ∀ r2 ∈ [[("a", PyVal.int 1)]], ∀ v1 v2 : PyVal,
      List.lookup c r1 = some v1 → List.lookup c r2 = some v2 →
      ∀ x y : ValueEnum, Convert.classify_val (some v1) = some x →
        Convert.classify_val (some v2) = some y →
        Convert.kind_of x = Convert.kind_of y := by
    intro c r1 hr1 r2 hr2 v1 v2 hl1 hl2 x y hx hy
    simp at hr1 hr2
    subst hr1; subst hr2
    rw [List.lookup_cons] at hl1 hl2
    by_cases hca : (c == "a") = true
    · simp only [hca] at hl1 hl2
      injection hl1 with hv1
      injection hl2 with hv2
      subst hv1; subst hv2
      rw [hx] at hy
      injection hy with hxy
      subst hxy
      rfl
    · rw [Bool.not_eq_true] at hca
      simp only [hca] at hl1
      simp at hl1
  obtain ⟨F, h1, h2, h3⟩ := from_dicts_to_dicts_roundtrip [[("a", PyVal.int 1)]]
    (by simp) (by simp) huni
  exact ⟨F, h1, h2, h3 0 (by simp) "a" (by simp) (PyVal.int 1) rfl⟩

theorem from_dicts_to_dicts_drops_late_key_counterexample :
    (Convert.from_dicts
        [[("a", PyVal.int 1)], [("a", PyVal.int 2), ("b", PyVal.int 5)]]).map
      (fun F => List.lookup "b" ((Convert.to_dicts F).getD 1 []))
      = Except.ok none ∧
    List.lookup "b"
      ([[("a", PyVal.int 1)], [("a", PyVal.int 2), ("b", PyVal.int 5)]].getD 1 [])
      = some (PyVal.int 5) := by
  constructor
  · rfl
  · rfl

end Feathertail
namespace Feathertail

/-- Claim C7: `chunked_groupby_sum` does NOT always produce the same
per-key totals as the non-chunked group-by sum aggregate, even for a
positive chunk size (2) not exceeding the table length (3).  With the
nullable group key column `a = [null, "q", "u"]` and second key
`b = ["p", "r", "w"]`, the chunk results render null-truncated key
tuples into per-key columns that drop the missing components, so
`merge_groupby_results` re-extracts key tuples pairing components of
DIFFERENT rows: the merged totals are keyed `[p, r]`, `[q]`, `[u, w]`
while the direct aggregate's key tuples are `[p]`, `[q, r]`, `[u, w]`.
The key-tuple sets already differ, so the per-key totals cannot
agree. -/
theorem chunked_groupby_sum_key_tuples_diverge :
    (ChunkedProcessor.chunked_totals 2
        ⟨[("a", TinyColumn.OptStr [none, some "q", some "u"]),
          ("b", TinyColumn.Str ["p", "r", "w"]),
          ("v", TinyColumn.Float [1, 2, 4])], 3, []⟩ ["a", "b"] "v").map
      (fun m => m.map (·.1))
      = Except.ok [[ValueEnum.Str "p", ValueEnum.Str "r"], [ValueEnum.Str "q"],
          [ValueEnum.Str "u", ValueEnum.Str "w"]] ∧
    (ParallelOps.group_sums
        ⟨[("a", TinyColumn.OptStr [none, some "q", some "u"]),
          ("b", TinyColumn.Str ["p", "r", "w"]),
          ("v", TinyColumn.Float [1, 2, 4])], 3, []⟩ ["a", "b"]
        (TinyColumn.Float [1, 2, 4])).map (·.1)
      = [[ValueEnum.Str "p"], [ValueEnum.Str "q", ValueEnum.Str "r"],
          [ValueEnum.Str "u", ValueEnum.Str "w"]] := by
  exact ⟨by decide, by decide⟩

end Feathertail
